import Mathlib

/-!
Verification of the lishp front end (tokenizer in `src/lexer.rs`, parser in
`src/parser.rs`, AST in `src/types.rs`, errors in `src/errors.rs`, visitor in
`src/visitor.rs`) against its natural-language specification.

Modelling conventions:
* Source text is a `List Char`; offsets are character offsets.  The Rust code
  uses byte offsets into a UTF-8 `String`, which coincide with character
  offsets on ASCII input (all regex patterns in `make_patterns` are
  ASCII-oriented, and every concrete input considered here is ASCII).
* The eight regexes built by `make_patterns` are embedded as explicit
  matching functions.  All but the comment pattern are anchored (`^...`), so
  they either match a prefix of the remaining suffix or fail.  The comment
  pattern `(?m)^;.*$` is *not* anchored at the cursor: with the multi-line
  flag, `^` matches at the start of the haystack (the remaining suffix) or
  right after any `'\n'`, so `Regex::find` can return a match that starts
  later than the cursor.  `bodyLen`-style lengths follow the greedy,
  leftmost-first semantics of the `regex` crate.
* `i64` integers are modelled as `Int` with explicit range checks against
  `2^63`; `f64` values are carried as Lean `Float` (IEEE double, like Rust's
  correctly-rounded `f64::from_str`).  No theorem below inspects a float
  *value*; only the success or failure of float parsing matters.
* Rust `panic!`-style aborts (`Vec::remove` on an empty vector in
  `parse_atom`, `unreachable!` in the visitor) are modelled as explicit
  outcomes (`POut.panicked`, `Option.none`), and loops/recursion are run on
  explicit fuel, with lemmas showing the chosen fuel never runs out.
-/

set_option autoImplicit false

namespace Lishp

/-- Source text / token text, as a list of characters. -/
abbrev Str := List Char

/-- `src/lexer.rs` `Span`: start and end offsets of a token.  The Rust field
`end` is a Lean keyword, so it is called `stop` here. -/
structure Span where
  start : Nat
  stop : Nat
  deriving DecidableEq, Repr

/-- `src/lexer.rs` `Token`: the matched substring and its span. -/
structure Token where
  value : Str
  span : Span
  deriving DecidableEq, Repr

/-- `src/lexer.rs` `InvalidTokenError`: position where no pattern matched. -/
structure InvalidTokenError where
  pos : Nat
  deriving DecidableEq, Repr

/-- The character class of the `regex` crate's `\s` (ASCII part): space, tab,
newline, carriage return, vertical tab, form feed. -/
def isRustWhitespace (c : Char) : Bool :=
  c = ' ' || c = '\t' || c = '\n' || c = '\r' || c = '\x0b' || c = '\x0c'

/-- First-character class of the identifier pattern
`[-_a-zA-Z+=*^&$!@/?|]` (note: `%` is absent). -/
def isIdentStart (c : Char) : Bool :=
  c = '-' || c = '_' || c.isAlpha || c = '+' || c = '=' || c = '*' ||
  c = '^' || c = '&' || c = '$' || c = '!' || c = '@' || c = '/' ||
  c = '?' || c = '|'

/-- Continuation class `[-_a-zA-Z0-9+=*^&$!@/?|]` of the identifier pattern. -/
def isIdentCont (c : Char) : Bool :=
  isIdentStart c || c.isDigit

/-- Length of the leading digit run. -/
def digitRun (s : Str) : Nat :=
  (s.takeWhile Char.isDigit).length

/-- Anchored pattern 1, `^\d+(\.\d+)?` (commented "floats" in the source):
digits, optionally followed by `.` and at least one more digit.  The group is
greedy, so `12.3` matches whole while `12.` matches only `12`. -/
def matchFloatLen (s : Str) : Option Nat :=
  let d := digitRun s
  if d = 0 then none
  else
    match s.drop d with
    | c :: rest =>
        if c = '.' then
          if digitRun rest = 0 then some d else some (d + 1 + digitRun rest)
        else some d
    | [] => some d

/-- Anchored pattern 2, `^-?\d+` (commented "integers"): optional minus then
digits. -/
def matchIntLen (s : Str) : Option Nat :=
  match s with
  | c :: rest =>
      if c = '-' then
        if digitRun rest = 0 then none else some (digitRun rest + 1)
      else
        if digitRun (c :: rest) = 0 then none else some (digitRun (c :: rest))
  | [] => none

/-- Anchored pattern 3, `^\(`. -/
def matchOpenLen (s : Str) : Option Nat :=
  match s with
  | c :: _ => if c = '(' then some 1 else none
  | [] => none

/-- Anchored pattern 4, `^\)`. -/
def matchCloseLen (s : Str) : Option Nat :=
  match s with
  | c :: _ => if c = ')' then some 1 else none
  | [] => none

/-- Anchored pattern 5, the identifier pattern
`^[-_a-zA-Z+=*^&$!@/?|][-_a-zA-Z0-9+=*^&$!@/?|]*`. -/
def matchIdentLen (s : Str) : Option Nat :=
  match s with
  | c :: rest =>
      if isIdentStart c then some (1 + (rest.takeWhile isIdentCont).length)
      else none
  | [] => none

mutual

/-- One step of the string-body scan after a backslash: the regex
alternative `\\.`, whose dot does not match a newline. -/
def matchStrEsc : Str → Option Nat
  | [] => none
  | c2 :: rest2 =>
      if c2 = '\n' then none else (matchStrTail rest2).map (· + 2)

/-- Body of the string pattern after the opening quote: the regex
`([^\\"]|\\.)*"`.  Each step is forced (the two alternatives are
distinguished by their first character), so this greedy scan agrees with
the regex engine. -/
def matchStrTail : Str → Option Nat
  | [] => none
  | c :: rest =>
      if c = '"' then some 1
      else if c = '\\' then matchStrEsc rest
      else (matchStrTail rest).map (· + 1)

end

/-- Anchored pattern 6, double-quoted strings `^"([^\\"]|\\.)*"`. -/
def matchStringLen (s : Str) : Option Nat :=
  match s with
  | c :: rest => if c = '"' then (matchStrTail rest).map (· + 1) else none
  | [] => none

/-- Pattern 7, line comments `(?m)^;.*$`.  Because of the `(?m)` flag this is
the one *unanchored* pattern: `Regex::find` returns the leftmost match, whose
start must be the start of the haystack or follow a `'\n'`.  Returns relative
(start, end) offsets within the given suffix; the boolean tracks whether the
current position is such a line start. -/
def findComment : Str → Bool → Option (Nat × Nat)
  | [], _ => none
  | c :: rest, lineStart =>
      if lineStart && c = ';' then
        some (0, 1 + (rest.takeWhile (fun c2 => c2 ≠ '\n')).length)
      else
        (findComment rest (c = '\n')).map (fun p => (p.1 + 1, p.2 + 1))

/-- Anchored pattern 8, whitespace runs `^\s+`. -/
def matchWsLen (s : Str) : Option Nat :=
  let n := (s.takeWhile isRustWhitespace).length
  if n = 0 then none else some n

/-- Wrap an anchored pattern as a `find`-style result (match at offset 0). -/
def anchored (f : Str → Option Nat) (s : Str) : Option (Nat × Nat) :=
  (f s).map (fun n => (0, n))

/-- The fixed pattern list of `make_patterns`, in priority order. -/
def patterns : List (Str → Option (Nat × Nat)) :=
  [anchored matchFloatLen,
   anchored matchIntLen,
   anchored matchOpenLen,
   anchored matchCloseLen,
   anchored matchIdentLen,
   anchored matchStringLen,
   fun s => findComment s true,
   anchored matchWsLen]

/-- The pattern of index `i`, for stating priority facts. -/
def patF (i : Fin 8) : Str → Option (Nat × Nat) :=
  patterns.get (Fin.cast (by decide) i)

/-- First pattern in the list that finds a match in `s`
(the `for pattern in &self.patterns` loop of `Lexer::next_token`). -/
def firstMatch : List (Str → Option (Nat × Nat)) → Str → Option (Nat × Nat)
  | [], _ => none
  | p :: ps, s =>
      match p s with
      | some r => some r
      | none => firstMatch ps s

/-- `Lexer::next_token`: at the end of input report no token; otherwise run
the patterns over the remaining suffix, build the token from the (absolute)
matched range and advance to its end; if nothing matched, fail with the
current position. -/
def nextToken (source : Str) (position : Nat) :
    Except InvalidTokenError (Option Token) :=
  if position ≥ source.length then .ok none
  else
    match firstMatch patterns (source.drop position) with
    | some (s, e) =>
        .ok (some ⟨(source.drop (s + position)).take (e - s),
                   ⟨s + position, e + position⟩⟩)
    | none => .error ⟨position⟩

/-- `Token::is_whitespace`: `value.trim().len() == 0`, i.e. every character
is whitespace. -/
def isWhitespaceTok (t : Token) : Bool :=
  t.value.all isRustWhitespace

/-- Result of running the whole tokenizer. -/
inductive LexOut where
  | ok (toks : List Token)
  | err (e : InvalidTokenError)
  | nofuel
  deriving DecidableEq, Repr

/-- The `loop` in `tokenize`, with fuel.  Whitespace tokens are filtered out;
`lexer.position` is the `span.stop` of the token just produced. -/
def tokenizeFrom (source : Str) : Nat → Nat → LexOut
  | 0, _ => .nofuel
  | fuel + 1, position =>
      match nextToken source position with
      | .error e => .err e
      | .ok none => .ok []
      | .ok (some tok) =>
          match tokenizeFrom source fuel tok.span.stop with
          | .ok rest => .ok (if isWhitespaceTok tok then rest else tok :: rest)
          | other => other

/-- `tokenize` in `src/lexer.rs`.  `source.length + 1` units of fuel always
suffice (`tokenize_ne_nofuel` below): every produced token is non-empty, so
the position strictly increases. -/
def tokenize (source : Str) : LexOut :=
  tokenizeFrom source (source.length + 1) 0

end Lishp
namespace Lishp

/-- `src/types.rs` `Type` (a Lean keyword, hence `Ty`): the AST node. -/
inductive Ty where
  | List (elems : List Ty)
  | Integer (n : Int)
  | Float (f : Float)
  | String (s : Str)
  | Symbol (s : Str)
  | Boolean (b : Bool)
  | Nil

/-- `std::num::ParseFloatError` (an opaque kind in Rust). -/
inductive ParseFloatError where
  | empty
  | invalid
  deriving DecidableEq, Repr

/-- `src/errors.rs` `LishpError`. -/
inductive LishpError where
  | EOF (pos : Nat)
  | InvalidNumber (e : ParseFloatError)
  | UnbalancedParens (pos : Nat)
  deriving DecidableEq, Repr

/-- Numeric value of a digit string. -/
def digitsToNat (ds : Str) : Nat :=
  ds.foldl (fun a c => a * 10 + (c.toNat - '0'.toNat)) 0

/-- Rust `i64::from_str` (`token.parse::<i64>()`): optional sign, a
non-empty digit run, nothing else, and the value must fit in `i64`. -/
def parseI64 (s : Str) : Option Int :=
  let (neg, ds) :=
    match s with
    | '+' :: r => (false, r)
    | '-' :: r => (true, r)
    | r => (false, r)
  if ds.isEmpty || !ds.all Char.isDigit then none
  else
    let v : Nat := digitsToNat ds
    if neg then
      if v ≤ 2 ^ 63 then some (-(v : Int)) else none
    else
      if v ≤ 2 ^ 63 - 1 then some (v : Int) else none

/-- IEEE double from decimal mantissa and power-of-ten exponent, matching the
correctly-rounded conversion of Rust's `f64::from_str`.  No theorem below
inspects this value. -/
def mkF64 (neg : Bool) (mant : Nat) (exp10 : Int) : Float :=
  let m : Float :=
    if 0 ≤ exp10 then Float.ofScientific mant false exp10.toNat
    else Float.ofScientific mant true (-exp10).toNat
  if neg then -m else m

/-- Exponent suffix of the `f64` grammar: `(e|E) sign? digits`, nothing
after.  Returns the exponent value. -/
def parseF64Exp (s : Str) : Option Int :=
  match s with
  | [] => some 0
  | e :: r =>
      if e = 'e' || e = 'E' then
        let (eneg, ds) :=
          match r with
          | '+' :: r2 => (false, r2)
          | '-' :: r2 => (true, r2)
          | r2 => (false, r2)
        if ds.isEmpty || !ds.all Char.isDigit then none
        else some (if eneg then -(digitsToNat ds : Int) else (digitsToNat ds : Int))
      else none

/-- Rust `f64::from_str` (`token.parse::<f64>()`): the whole string must be
`sign? (inf | infinity | nan | significand exp?)` (case-insensitive special
values), where the significand is `digits [. digits?]` or `. digits`. -/
def parseF64 (s : Str) : Option Float :=
  let (neg, r) :=
    match s with
    | '+' :: r => (false, r)
    | '-' :: r => (true, r)
    | r => (false, r)
  let low := r.map Char.toLower
  if low = "inf".toList || low = "infinity".toList then
    some (if neg then -(1.0 / 0.0) else (1.0 / 0.0))
  else if low = "nan".toList then some (0.0 / 0.0)
  else
    let d1 := r.takeWhile Char.isDigit
    let r1 := r.drop d1.length
    let parts : Option (Nat × Nat × Str) :=
      match r1 with
      | '.' :: r2 =>
          let d2 := r2.takeWhile Char.isDigit
          if d1.isEmpty && d2.isEmpty then none
          else some (digitsToNat (d1 ++ d2), d2.length, r2.drop d2.length)
      | _ => if d1.isEmpty then none else some (digitsToNat d1, 0, r1)
    match parts with
    | none => none
    | some (mant, fracLen, rest) =>
        match parseF64Exp rest with
        | none => none
        | some e => some (mkF64 neg mant (e - (fracLen : Int)))

/-- `replace(r"\n", "\n")`: left-to-right, non-overlapping. -/
def unescapeN : Str → Str
  | '\\' :: 'n' :: rest => '\n' :: unescapeN rest
  | c :: rest => c :: unescapeN rest
  | [] => []

/-- `replace(r"\t", "\t")`. -/
def unescapeT : Str → Str
  | '\\' :: 't' :: rest => '\t' :: unescapeT rest
  | c :: rest => c :: unescapeT rest
  | [] => []

/-- The escape processing of `parse_atom`'s string branch:
`.replace(r"\n", "\n").replace(r"\t", "\t")`. -/
def unescape (s : Str) : Str :=
  unescapeT (unescapeN s)

/-- `Token::starts_with_number`: is the first character a decimal digit? -/
def startsWithNumber (t : Token) : Bool :=
  match t.value.head? with
  | some c => c.isDigit
  | none => false

/-- The parser state (`Parser` struct): the token list, the cursor, and the
`parens_stack` of *token indices* pushed on each consumed `(`
(`Vec::push` appends, `Vec::pop` removes the last element). -/
structure PState where
  tokens : List Token
  position : Nat
  parens : List Nat
  deriving Repr

/-- Outcome of a parser computation.  `panicked` models a Rust panic
(`Vec::remove(0)` on an empty vector); `nofuel` is the fuel sentinel, shown
unreachable for the fuel used by `parse` (`parseForm_ne_nofuel`). -/
inductive POut where
  | ok (v : Ty)
  | err (e : LishpError)
  | panicked
  | nofuel

/-- `Parser::chomp_open_paren`: if the next token is `"("`, push the current
position and consume it. -/
def chompOpen (s : PState) : Option Token × PState :=
  match s.tokens[s.position]? with
  | some t =>
      if t.value = ['('] then
        (some t, { s with position := s.position + 1,
                          parens := s.parens ++ [s.position] })
      else (none, s)
  | none => (none, s)

/-- `Parser::chomp_close_paren`: if the next token is `")"`, pop the stack
and consume it. -/
def chompClose (s : PState) : Option Token × PState :=
  match s.tokens[s.position]? with
  | some t =>
      if t.value = [')'] then
        (some t, { s with position := s.position + 1,
                          parens := s.parens.dropLast })
      else (none, s)
  | none => (none, s)

/-- `Parser::eof`: `EOF(*self.parens_stack.get(0).unwrap_or(&0))`. -/
def eofErr (s : PState) : LishpError :=
  .EOF ((s.parens.head?).getD 0)

/-- `Parser::parse_atom`.  When the cursor is past the end: `EOF`.  Otherwise
consume one token and classify it; a string-looking token of length < 2 hits
`debug_assert!(letters.len() >= 2)` / `letters.remove(0)` on an empty vector,
i.e. a panic. -/
def parseAtom (s : PState) : POut × PState :=
  match s.tokens[s.position]? with
  | none => (.err (eofErr s), s)
  | some t =>
      let s' := { s with position := s.position + 1 }
      if startsWithNumber t then
        match parseI64 t.value with
        | some n => (.ok (.Integer n), s')
        | none =>
            match parseF64 t.value with
            | some x => (.ok (.Float x), s')
            | none => (.err (.InvalidNumber .invalid), s')
      else if t.value.head? = some '"' then
        if t.value.length < 2 then (.panicked, s')
        else (.ok (.String (unescape ((t.value.drop 1).dropLast))), s')
      else if t.value = "nil".toList then (.ok .Nil, s')
      else if t.value = "true".toList then (.ok (.Boolean true), s')
      else if t.value = "false".toList then (.ok (.Boolean false), s')
      else (.ok (.Symbol t.value), s')

mutual

/-- `Parser::parse_form`: an empty *token list* (not an exhausted cursor)
yields `Nil`; else a leading `(` starts a list, anything else an atom. -/
def parseForm : Nat → PState → POut × PState
  | 0, s => (.nofuel, s)
  | fuel + 1, s =>
      if s.tokens.length = 0 then (.ok .Nil, s)
      else
        match chompOpen s with
        | (some _, s') => parseList fuel [] s'
        | (none, _) => parseAtom s

/-- `Parser::parse_list`: the `while let None = self.chomp_close_paren()`
loop, with `components` as the accumulator; on the closing paren an empty
accumulator yields `Nil`, otherwise `List components`. -/
def parseList : Nat → List Ty → PState → POut × PState
  | 0, _, s => (.nofuel, s)
  | fuel + 1, components, s =>
      match chompClose s with
      | (some _, s') =>
          (.ok (if components.isEmpty then .Nil else .List components), s')
      | (none, _) =>
          match parseForm fuel s with
          | (.ok v, s') => parseList fuel (components ++ [v]) s'
          | other => other

end

/-- Fuel sufficient for any token list (see `parseForm_ne_nofuel`). -/
def parseFuel (tokens : List Token) : Nat :=
  2 * tokens.length + 2

/-- `Parser::parse` run from `Parser::new(tokens)`, also exposing the final
state: parse one form, then require the whole stream to be consumed, else
`Err(self.eof())`. -/
def parseRun (tokens : List Token) : POut × PState :=
  match parseForm (parseFuel tokens) ⟨tokens, 0, []⟩ with
  | (.ok ast, s') =>
      if s'.position ≠ tokens.length then (.err (eofErr s'), s')
      else (.ok ast, s')
  | other => other

/-- `Parser::parse`: just the outcome. -/
def parse (tokens : List Token) : POut :=
  (parseRun tokens).1

/-- Full pipeline result: tokenize, then parse. -/
inductive PipeOut where
  | ok (v : Ty)
  | lexErr (e : InvalidTokenError)
  | parseErr (e : LishpError)
  | panicked
  | nofuel

/-- The standard pipeline `Parser::new(tokenize(src)?).parse()` used in the
spec's `parse("...")` notation. -/
def pipeline (src : Str) : PipeOut :=
  match tokenize src with
  | .err e => .lexErr e
  | .nofuel => .nofuel
  | .ok toks =>
      match parse toks with
      | .ok v => .ok v
      | .err e => .parseErr e
      | .panicked => .panicked
      | .nofuel => .nofuel

end Lishp
namespace Lishp

/-- `src/visitor.rs` `Visitor`: a conforming implementation overrides only
the five per-kind leaf hooks; `visit` / `visit_list` / `visit_atom` keep
their default bodies (modelled below as fixed functions).  Each hook takes
the visitor state and the node and may rewrite both (`&mut self`,
`&mut Type`); the default of every hook is a no-op. -/
structure Visitor (σ : Type) where
  visitBoolean : σ → Ty → σ × Ty := fun s t => (s, t)
  visitInteger : σ → Ty → σ × Ty := fun s t => (s, t)
  visitFloat : σ → Ty → σ × Ty := fun s t => (s, t)
  visitString : σ → Ty → σ × Ty := fun s t => (s, t)
  visitSymbol : σ → Ty → σ × Ty := fun s t => (s, t)

/-- Default `Visitor::visit_atom`: dispatch on the concrete atom kind;
`Nil` is a no-op; a `List` hits `unreachable!` ("Shouldn't have any Lists
here"), modelled as `none`. -/
def visitAtom {σ : Type} (V : Visitor σ) (s : σ) (t : Ty) : Option (σ × Ty) :=
  match t with
  | .Boolean _ => some (V.visitBoolean s t)
  | .Integer _ => some (V.visitInteger s t)
  | .Float _ => some (V.visitFloat s t)
  | .String _ => some (V.visitString s t)
  | .Symbol _ => some (V.visitSymbol s t)
  | .Nil => some (s, .Nil)
  | .List _ => none

mutual

/-- Default `Visitor::visit`: a `List` node recurses into every child (the
body of `visit_list`, whose non-`List` arm is unreachable when called this
way); every other node goes to `visit_atom`. -/
def visit {σ : Type} (V : Visitor σ) (s : σ) : Ty → Option (σ × Ty)
  | .List l =>
      match visitChildren V s l with
      | some (s', l') => some (s', .List l')
      | none => none
  | t => visitAtom V s t

/-- The `for node in list.iter_mut() { self.visit(node) }` loop of
`visit_list`, threading the visitor state left to right. -/
def visitChildren {σ : Type} (V : Visitor σ) (s : σ) :
    List Ty → Option (σ × List Ty)
  | [] => some (s, [])
  | t :: ts =>
      match visit V s t with
      | some (s', t') =>
          match visitChildren V s' ts with
          | some (s'', ts') => some (s'', t' :: ts')
          | none => none
      | none => none

end

/-- Default `Visitor::visit_list` as a standalone entry point: its second
match arm is `unreachable!` ("Should never get anything other than a List"),
modelled as `none`.  `visit` on a `List` is exactly this function
(`visit_eq_visitList` below). -/
def visitList {σ : Type} (V : Visitor σ) (s : σ) (t : Ty) : Option (σ × Ty) :=
  match t with
  | .List l =>
      match visitChildren V s l with
      | some (s', l') => some (s', .List l')
      | none => none
  | _ => none

theorem visit_eq_visitList {σ : Type} (V : Visitor σ) (s : σ) (l : List Ty) :
    visit V s (.List l) = visitList V s (.List l) := by
  simp [visit, visitList]

/-- A visitor with every hook left at its default. -/
def defaultVisitor (σ : Type) : Visitor σ := {}

/-- The `DummyVisitor` of the visitor tests: every one of the five leaf
hooks bumps a counter and leaves the node alone. -/
def countingVisitor : Visitor Nat where
  visitBoolean := fun n t => (n + 1, t)
  visitInteger := fun n t => (n + 1, t)
  visitFloat := fun n t => (n + 1, t)
  visitString := fun n t => (n + 1, t)
  visitSymbol := fun n t => (n + 1, t)

/-- Unmatched-open-paren stack of the first `p` tokens, for the
error-position claims: each consumed `"("` pushes its token index, each
consumed `")"` pops the most recent one (popping an empty stack is a
no-op, as `Vec::pop` on an empty vector returns `None`). -/
def specStack (toks : List Token) : Nat → List Nat
  | 0 => []
  | p + 1 =>
      let st := specStack toks p
      match toks[p]? with
      | some t =>
          if t.value = ['('] then st ++ [p]
          else if t.value = [')'] then st.dropLast
          else st
      | none => st

/-- Convenience: a token from a literal string and a start offset. -/
def mkTok (s : String) (start : Nat) : Token :=
  ⟨s.toList, ⟨start, start + s.length⟩⟩

end Lishp
namespace Lishp

/-- C1.  The claim says `parse("-123")` is `Integer(-123)` and
`parse("-12.3")` is `Float(-12.3)`.  The code disagrees with both: the lexer
does produce the single token `"-123"` (pattern 2 matches it whole), but
`parse_atom` classifies by `starts_with_number`, which tests only the first
character, so the token falls through to the `Symbol` branch; and `-12.3`
does not even tokenize, because pattern 1 rejects the minus, pattern 2 stops
at `"-12"`, and nothing matches the remaining `".3"`, so tokenization fails
with `InvalidToken` at offset 3.  The lexer's own pattern comment
("integers") and the repository's grammar tests (`-123` ↦ `Int(-123)`,
`-12.3` ↦ `Float(-12.3)` in `tests/grammar.rs` and `src/ast.rs`) show the
claimed behaviour is the intent, so this is a bug in the code. -/
theorem c1_negative_numeric_literals :
    tokenize ("-123".toList) = .ok [⟨"-123".toList, ⟨0, 4⟩⟩] ∧
    pipeline ("-123".toList) = .ok (.Symbol ("-123".toList)) ∧
    tokenize ("-12.3".toList) = .err ⟨3⟩ ∧
    pipeline ("-12.3".toList) = .lexErr ⟨3⟩ :=
  ⟨rfl, rfl, rfl, rfl⟩

/-- C3.  The claim says a close paren with no pending open paren is a
structural error, hence accepted inputs consume equally many `(` and `)`
tokens.  But at top level a `")"` token is consumed by `parse_atom` (only
`parse_list` checks for close parens), which classifies it as a symbol, so
the one-token stream `")"` — exactly what `tokenize(")")` produces — is
accepted as `Symbol(")")` with zero `(` and one `)` consumed.  The parser's
own `// TODO: add proper error handling for unbalanced parens` and the
never-constructed `LishpError::UnbalancedParens` variant ("There aren't a
balanced number of parentheses") show the claim is the intent and the code
a slip. -/
theorem c3_stray_close_paren_accepted :
    tokenize (")".toList) = .ok [⟨[')'], ⟨0, 1⟩⟩] ∧
    parse [⟨[')'], ⟨0, 1⟩⟩] = .ok (.Symbol [')']) ∧
    pipeline (")".toList) = .ok (.Symbol [')']) ∧
    ([(⟨[')'], ⟨0, 1⟩⟩ : Token)].countP (fun t => t.value = ['('])) = 0 ∧
    ([(⟨[')'], ⟨0, 1⟩⟩ : Token)].countP (fun t => t.value = [')'])) = 1 :=
  ⟨rfl, rfl, rfl, rfl, rfl⟩

/-- C5.  Of the seven claimed single-character operator symbols, six parse
as claimed, but `%` is missing from the identifier pattern's character class
`[-_a-zA-Z+=*^&$!@/?|]`, so `parse("%")` fails at tokenization with
`InvalidToken` at offset 0.  The crate's own doctest in `src/lib.rs`
(`lishp::tokenize(r#"(print "5 + (9 % 2) = " (+ 5 (% 9 2)))"#).unwrap()`)
and the grammar tests (`"%"` ↦ `Symbol("%")`) treat `%` as lexable, so the
claim is the intent and the code a slip. -/
theorem c5_operator_symbols :
    pipeline ("+".toList) = .ok (.Symbol ['+']) ∧
    pipeline ("-".toList) = .ok (.Symbol ['-']) ∧
    pipeline ("*".toList) = .ok (.Symbol ['*']) ∧
    pipeline ("/".toList) = .ok (.Symbol ['/']) ∧
    pipeline ("!".toList) = .ok (.Symbol ['!']) ∧
    pipeline ("_".toList) = .ok (.Symbol ['_']) ∧
    pipeline ("%".toList) = .lexErr ⟨0⟩ :=
  ⟨rfl, rfl, rfl, rfl, rfl, rfl, rfl⟩

/-- C6.  Empty-list normalization: `parse("()")` and `parse("(  )")` are
`Nil` (in `parse_list` an empty accumulator yields `Nil`, and the whitespace
tokens are filtered out before parsing), and parsing an empty token stream
yields `Nil` (the `tokens.len() == 0` check in `parse_form`). -/
theorem c6_empty_list_normalization :
    pipeline ("()".toList) = .ok .Nil ∧
    pipeline ("(  )".toList) = .ok .Nil ∧
    parse [] = .ok .Nil :=
  ⟨rfl, rfl, rfl⟩

end Lishp
namespace Lishp

/-- C7.  For a token whose first character is a digit, `parse_atom` tries
`parse::<i64>()` first and `parse::<f64>()` second, and when both fail the
result is `Err(InvalidNumber(...))` wrapping the float-parse failure (the
`From<ParseFloatError> for LishpError` conversion applied by `?`).  On the
hand-built one-token stream `"12.3.4"` both numeric parses fail and
`Parser::parse` returns `InvalidNumber`. -/
theorem c7_digit_token_numeric_order :
    (∀ (s : PState) (t : Token), s.tokens[s.position]? = some t →
        startsWithNumber t = true →
        (parseAtom s).1 =
          (match parseI64 t.value with
           | some n => .ok (.Integer n)
           | none =>
               match parseF64 t.value with
               | some x => .ok (.Float x)
               | none => .err (.InvalidNumber .invalid))) ∧
    parseI64 ("12.3.4".toList) = none ∧
    parseF64 ("12.3.4".toList) = none ∧
    parse [⟨"12.3.4".toList, ⟨0, 6⟩⟩] = .err (.InvalidNumber .invalid) := by
  refine ⟨?_, rfl, rfl, rfl⟩
  intro s t h1 h2
  unfold parseAtom
  rw [h1]
  simp only [h2, if_pos]
  cases parseI64 t.value <;> [skip; rfl]
  cases parseF64 t.value <;> rfl

/-- Witness for the universally quantified part of
`c7_digit_token_numeric_order`, at the concrete token `"12.3.4"`. -/
theorem c7_digit_token_numeric_order_witness :
    (parseAtom ⟨[⟨"12.3.4".toList, ⟨0, 6⟩⟩], 0, []⟩).1 =
      .err (.InvalidNumber .invalid) :=
  c7_digit_token_numeric_order.1 ⟨[⟨"12.3.4".toList, ⟨0, 6⟩⟩], 0, []⟩
    ⟨"12.3.4".toList, ⟨0, 6⟩⟩ rfl rfl

end Lishp
namespace Lishp

mutual

theorem visit_defaultVisitor {σ : Type} (s : σ) (t : Ty) :
    visit (defaultVisitor σ) s t = some (s, t) :=
  match t with
  | .List l => by
      rw [visit, visitChildren_defaultVisitor s l]
  | .Integer _ => rfl
  | .Float _ => rfl
  | .String _ => rfl
  | .Symbol _ => rfl
  | .Boolean _ => rfl
  | .Nil => rfl

theorem visitChildren_defaultVisitor {σ : Type} (s : σ) (l : List Ty) :
    visitChildren (defaultVisitor σ) s l = some (s, l) :=
  match l with
  | [] => rfl
  | t :: ts => by
      rw [visitChildren, visit_defaultVisitor s t]
      show (match visitChildren (defaultVisitor σ) s ts with
            | some (s'', ts') => some (s'', t :: ts')
            | none => none) = some (s, t :: ts)
      rw [visitChildren_defaultVisitor s ts]

end

mutual

theorem visit_total {σ : Type} (V : Visitor σ) (s : σ) (t : Ty) :
    ∃ p, visit V s t = some p :=
  match t with
  | .List l => by
      obtain ⟨p, hp⟩ := visitChildren_total V s l
      exact ⟨(p.1, .List p.2), by rw [visit, hp]⟩
  | .Integer _ => ⟨_, rfl⟩
  | .Float _ => ⟨_, rfl⟩
  | .String _ => ⟨_, rfl⟩
  | .Symbol _ => ⟨_, rfl⟩
  | .Boolean _ => ⟨_, rfl⟩
  | .Nil => ⟨_, rfl⟩

theorem visitChildren_total {σ : Type} (V : Visitor σ) (s : σ) (l : List Ty) :
    ∃ p, visitChildren V s l = some p :=
  match l with
  | [] => ⟨_, rfl⟩
  | t :: ts => by
      obtain ⟨p, hp⟩ := visit_total V s t
      obtain ⟨q, hq⟩ := visitChildren_total V p.1 ts
      refine ⟨(q.1, p.2 :: q.2), ?_⟩
      rw [visitChildren, hp]
      show (match visitChildren V p.1 ts with
            | some (s'', ts') => some (s'', p.2 :: ts')
            | none => none) = some (q.1, p.2 :: q.2)
      rw [hq]

end

/-- Token list of `tokenize("(false 5 3.14 \"foo\" bar nil)")`. -/
def c8toks : List Token :=
  [⟨"(".toList, ⟨0, 1⟩⟩, ⟨"false".toList, ⟨1, 6⟩⟩, ⟨"5".toList, ⟨7, 8⟩⟩,
   ⟨"3.14".toList, ⟨9, 13⟩⟩, ⟨"\"foo\"".toList, ⟨14, 19⟩⟩,
   ⟨"bar".toList, ⟨20, 23⟩⟩, ⟨"nil".toList, ⟨24, 27⟩⟩, ⟨")".toList, ⟨27, 28⟩⟩]

/-- AST of `(false 5 3.14 "foo" bar nil)`: five non-`Nil` atoms and a `Nil`
leaf. -/
def c8tree : Ty :=
  .List [.Boolean false, .Integer 5, .Float (mkF64 false 314 (-2)),
         .String "foo".toList, .Symbol "bar".toList, .Nil]

/-- C8.  Visitor dispatch: on the tree parsed from
`(false 5 3.14 "foo" bar nil)` the counting visitor (every one of the five
leaf hooks bumps a counter) reports exactly 5 — the `Nil` leaf invokes no
hook (conjunct 4: `visit` on `Nil` returns the state untouched for *every*
visitor); `visit_atom` answers `unreachable!` on a `List` (modelled `none`,
conjunct 5), yet a traversal started through `visit` never reaches it
(conjunct 6: `visit` is total); and a visitor with all-default hooks leaves
every node unchanged (conjunct 7). -/
theorem c8_visitor_dispatch :
    tokenize ("(false 5 3.14 \"foo\" bar nil)".toList) = .ok c8toks ∧
    parse c8toks = .ok c8tree ∧
    visit countingVisitor 0 c8tree = some (5, c8tree) ∧
    (∀ (σ : Type) (V : Visitor σ) (s : σ), visit V s .Nil = some (s, .Nil)) ∧
    (∀ (σ : Type) (V : Visitor σ) (s : σ) (l : List Ty),
        visitAtom V s (.List l) = none) ∧
    (∀ (σ : Type) (V : Visitor σ) (s : σ) (t : Ty), (visit V s t).isSome) ∧
    (∀ (σ : Type) (s : σ) (t : Ty), visit (defaultVisitor σ) s t = some (s, t)) := by
  refine ⟨rfl, rfl, rfl, fun σ V s => rfl, fun σ V s l => rfl, ?_, ?_⟩
  · intro σ V s t
    obtain ⟨p, hp⟩ := visit_total V s t
    rw [hp]
    rfl
  · intro σ s t
    exact visit_defaultVisitor s t

end Lishp
namespace Lishp

/-- C9.  Top-level success condition of `Parser::parse`: if the single
top-level form leaves the cursor short of the end of the token stream, the
result is the structural error `Err(self.eof())` and never a value
(conjunct 1); conversely every successful parse comes from a top-level form
that consumed the entire stream (conjunct 2).  Concretely, a stray trailing
`")"` after the complete form `()` is rejected (conjunct 3). -/
theorem c9_top_level_consumption :
    (∀ (toks : List Token) (v : Ty) (s' : PState),
        parseForm (parseFuel toks) ⟨toks, 0, []⟩ = (.ok v, s') →
        s'.position ≠ toks.length → parse toks = .err (eofErr s')) ∧
    (∀ (toks : List Token) (v : Ty), parse toks = .ok v →
        ∃ s', parseForm (parseFuel toks) ⟨toks, 0, []⟩ = (.ok v, s') ∧
              s'.position = toks.length) ∧
    pipeline ("())".toList) = .parseErr (.EOF 0) := by
  refine ⟨?_, ?_, rfl⟩
  · intro toks v s' h hne
    simp [parse, parseRun, h, hne]
  · intro toks v h
    rw [parse, parseRun] at h
    rcases h' : parseForm (parseFuel toks) ⟨toks, 0, []⟩ with ⟨r, s'⟩
    rw [h'] at h
    cases r with
    | ok ast =>
        by_cases hpos : s'.position ≠ toks.length
        · simp [hpos] at h
        · push_neg at hpos
          simp [if_neg, hpos] at h
          subst h
          exact ⟨s', rfl, hpos⟩
    | err e => simp at h
    | panicked => simp at h
    | nofuel => simp at h

/-- Witness for `c9_top_level_consumption` on the token stream of `"())"`:
the top-level form consumes two of the three tokens, so parsing fails. -/
theorem c9_top_level_consumption_witness :
    parse [⟨['('], ⟨0, 1⟩⟩, ⟨[')'], ⟨1, 2⟩⟩, ⟨[')'], ⟨2, 3⟩⟩] =
      .err (eofErr ⟨[⟨['('], ⟨0, 1⟩⟩, ⟨[')'], ⟨1, 2⟩⟩, ⟨[')'], ⟨2, 3⟩⟩], 2, []⟩) :=
  c9_top_level_consumption.1
    [⟨['('], ⟨0, 1⟩⟩, ⟨[')'], ⟨1, 2⟩⟩, ⟨[')'], ⟨2, 3⟩⟩] .Nil
    ⟨[⟨['('], ⟨0, 1⟩⟩, ⟨[')'], ⟨1, 2⟩⟩, ⟨[')'], ⟨2, 3⟩⟩], 2, []⟩ rfl (by decide)

end Lishp
namespace Lishp

/-- The type of a compiled pattern's `find` behaviour. -/
abbrev Pat := Str → Option (Nat × Nat)

theorem firstMatch_some {ps : List Pat} {s : Str}
    {r : Nat × Nat} (h : firstMatch ps s = some r) :
    ∃ (i : Nat) (p : Pat), ps[i]? = some p ∧ p s = some r ∧
      ∀ (j : Nat) (q : Pat), j < i → ps[j]? = some q → q s = none := by
  induction ps with
  | nil => simp [firstMatch] at h
  | cons p ps ih =>
      rw [firstMatch] at h
      cases hp : p s with
      | some r' =>
          rw [hp] at h
          refine ⟨0, p, by simp, ?_, ?_⟩
          · rw [hp]; exact h
          · intro j q hj; exact absurd hj (Nat.not_lt_zero j)
      | none =>
          rw [hp] at h
          obtain ⟨i, p', hget, hps, hprev⟩ := ih h
          refine ⟨i + 1, p', ?_, hps, ?_⟩
          · simp only [List.getElem?_cons_succ]; exact hget
          · intro j q hj hq
            cases j with
            | zero =>
                simp only [List.getElem?_cons_zero, Option.some.injEq] at hq
                rw [← hq]; exact hp
            | succ k =>
                simp only [List.getElem?_cons_succ] at hq
                exact hprev k q (by omega) hq

theorem firstMatch_eq_none {ps : List Pat} {s : Str}
    (h : firstMatch ps s = none) :
    ∀ (i : Nat) (p : Pat), ps[i]? = some p → p s = none := by
  induction ps with
  | nil => intro i p hip; simp at hip
  | cons p ps ih =>
      rw [firstMatch] at h
      cases hp : p s with
      | some r' => rw [hp] at h; exact absurd h (by simp)
      | none =>
          rw [hp] at h
          intro i q hiq
          cases i with
          | zero =>
              simp only [List.getElem?_cons_zero, Option.some.injEq] at hiq
              rw [← hiq]; exact hp
          | succ k =>
              simp only [List.getElem?_cons_succ] at hiq
              exact ih h k q hiq

/-- C4 (amended).  At every tokenization step with input left, the first
pattern in the fixed priority order that finds a match *in the remaining
suffix* yields the next token — the token text and span come from the
matched range, which for every pattern except the line-comment pattern
(index 6, the only unanchored one; conjunct 2) starts exactly at the
cursor — and if no pattern finds a match in the suffix, tokenization fails
with `InvalidToken` carrying the current cursor offset. -/
theorem c4_first_pattern_wins :
    (∀ (source : Str) (position : Nat), position < source.length →
      (match nextToken source position with
       | .error e => e.pos = position ∧
           ∀ (i : Nat) (p : Pat), patterns[i]? = some p →
             p (source.drop position) = none
       | .ok none => False
       | .ok (some tok) => ∃ (i : Nat) (p : Pat) (a b : Nat),
           patterns[i]? = some p ∧ p (source.drop position) = some (a, b) ∧
           (∀ (j : Nat) (q : Pat), j < i → patterns[j]? = some q →
               q (source.drop position) = none) ∧
           tok.value = (source.drop (a + position)).take (b - a) ∧
           tok.span = ⟨a + position, b + position⟩)) ∧
    (∀ (s : Str) (i : Nat) (p : Pat) (a b : Nat),
        i ≠ 6 → patterns[i]? = some p → p s = some (a, b) → a = 0) := by
  constructor
  · intro source position hlt
    have hge : ¬ position ≥ source.length := by omega
    cases hm : firstMatch patterns (source.drop position) with
    | none =>
        have hnt : nextToken source position = .error ⟨position⟩ := by
          rw [nextToken, if_neg hge, hm]
        rw [hnt]
        exact ⟨rfl, firstMatch_eq_none hm⟩
    | some r =>
        obtain ⟨a, b⟩ := r
        have hnt : nextToken source position =
            .ok (some ⟨(source.drop (a + position)).take (b - a),
                       ⟨a + position, b + position⟩⟩) := by
          rw [nextToken, if_neg hge, hm]
        rw [hnt]
        obtain ⟨i, p, hget, hps, hprev⟩ := firstMatch_some hm
        exact ⟨i, p, a, b, hget, hps, hprev, rfl, rfl⟩
  · intro s i p a b hne hget hp
    have anch : ∀ (f : Str → Option Nat), anchored f s = some (a, b) → a = 0 := by
      intro f hf
      obtain ⟨n, -, h0⟩ := Option.map_eq_some'.mp hf
      exact (congrArg Prod.fst h0).symm
    rcases i with _|_|_|_|_|_|_|_|k
    · exact anch matchFloatLen (by
        simp only [patterns, List.getElem?_cons_zero, Option.some.injEq] at hget
        rw [← hget] at hp; exact hp)
    · exact anch matchIntLen (by
        simp only [patterns, List.getElem?_cons_succ, List.getElem?_cons_zero,
          Option.some.injEq] at hget
        rw [← hget] at hp; exact hp)
    · exact anch matchOpenLen (by
        simp only [patterns, List.getElem?_cons_succ, List.getElem?_cons_zero,
          Option.some.injEq] at hget
        rw [← hget] at hp; exact hp)
    · exact anch matchCloseLen (by
        simp only [patterns, List.getElem?_cons_succ, List.getElem?_cons_zero,
          Option.some.injEq] at hget
        rw [← hget] at hp; exact hp)
    · exact anch matchIdentLen (by
        simp only [patterns, List.getElem?_cons_succ, List.getElem?_cons_zero,
          Option.some.injEq] at hget
        rw [← hget] at hp; exact hp)
    · exact anch matchStringLen (by
        simp only [patterns, List.getElem?_cons_succ, List.getElem?_cons_zero,
          Option.some.injEq] at hget
        rw [← hget] at hp; exact hp)
    · exact absurd rfl hne
    · exact anch matchWsLen (by
        simp only [patterns, List.getElem?_cons_succ, List.getElem?_cons_zero,
          Option.some.injEq] at hget
        rw [← hget] at hp; exact hp)
    · simp [patterns] at hget

/-- Witness for `c4_first_pattern_wins` at source `"(a"`, position 0. -/
theorem c4_first_pattern_wins_witness :
    (0 : Nat) < ("(a".toList).length ∧
    (match nextToken ("(a".toList) 0 with
     | .error e => e.pos = 0 ∧
         ∀ (i : Nat) (p : Pat), patterns[i]? = some p →
           p (("(a".toList).drop 0) = none
     | .ok none => False
     | .ok (some tok) => ∃ (i : Nat) (p : Pat) (a b : Nat),
         patterns[i]? = some p ∧ p (("(a".toList).drop 0) = some (a, b) ∧
         (∀ (j : Nat) (q : Pat), j < i → patterns[j]? = some q →
             q (("(a".toList).drop 0) = none) ∧
         tok.value = (("(a".toList).drop (a + 0)).take (b - a) ∧
         tok.span = ⟨a + 0, b + 0⟩) :=
  ⟨by decide, c4_first_pattern_wins.1 ("(a".toList) 0 (by decide)⟩

/-- C4, counterexample to the claim as stated.  On source `"~\n;"` no
pattern matches *at* cursor 0 (the seven anchored patterns fail, and the
comment pattern's leftmost match starts at offset 2), yet tokenization does
not fail with `InvalidToken` at offset 0: because of the `(?m)` flag the
comment pattern matches at the line start after the `'\n'`, so `next_token`
returns a token whose text starts at 2, not at the cursor, silently
skipping the unlexable `"~\n"`. -/
theorem c4_counterexample :
    anchored matchFloatLen ("~\n;".toList) = none ∧
    anchored matchIntLen ("~\n;".toList) = none ∧
    anchored matchOpenLen ("~\n;".toList) = none ∧
    anchored matchCloseLen ("~\n;".toList) = none ∧
    anchored matchIdentLen ("~\n;".toList) = none ∧
    anchored matchStringLen ("~\n;".toList) = none ∧
    anchored matchWsLen ("~\n;".toList) = none ∧
    findComment ("~\n;".toList) true = some (2, 3) ∧
    nextToken ("~\n;".toList) 0 = .ok (some ⟨[';'], ⟨2, 3⟩⟩) ∧
    tokenize ("~\n;".toList) = .ok [⟨[';'], ⟨2, 3⟩⟩] :=
  ⟨rfl, rfl, rfl, rfl, rfl, rfl, rfl, rfl, rfl, rfl⟩

end Lishp
namespace Lishp

theorem specStack_lt (toks : List Token) :
    ∀ p : Nat, ∀ x ∈ specStack toks p, x < p := by
  intro p
  induction p with
  | zero => simp [specStack]
  | succ q ih =>
      rw [specStack]
      cases ht : toks[q]? with
      | none => exact fun x hx => Nat.lt_succ_of_lt (ih x hx)
      | some t =>
          by_cases hop : t.value = ['(']
          · simp only [hop, if_pos rfl]
            intro x hx
            rcases List.mem_append.mp hx with hx | hx
            · exact Nat.lt_succ_of_lt (ih x hx)
            · simp at hx; omega
          · by_cases hcl : t.value = [')']
            · simp only [hop, hcl, if_neg, if_pos rfl, reduceIte]
              intro x hx
              exact Nat.lt_succ_of_lt
                (ih x (List.dropLast_sublist _ |>.mem hx))
            · simp only [hop, hcl, reduceIte]
              exact fun x hx => Nat.lt_succ_of_lt (ih x hx)

theorem specStack_sorted (toks : List Token) :
    ∀ p : Nat, (specStack toks p).Sorted (· < ·) := by
  intro p
  induction p with
  | zero => simp [specStack]
  | succ q ih =>
      rw [specStack]
      cases ht : toks[q]? with
      | none => exact ih
      | some t =>
          by_cases hop : t.value = ['(']
          · simp only [hop, if_pos rfl]
            refine List.pairwise_append.mpr ⟨ih, List.sorted_singleton q, ?_⟩
            intro x hx y hy
            simp only [List.mem_singleton] at hy
            have := specStack_lt toks q x hx
            omega
          · by_cases hcl : t.value = [')']
            · simp only [hop, hcl, if_neg, if_pos rfl, reduceIte]
              exact ih.sublist (List.dropLast_sublist _)
            · simp only [hop, hcl, reduceIte]
              exact ih

theorem specStack_head_le (toks : List Token) (p k : Nat)
    (hk : (specStack toks p).head? = some k) :
    ∀ x ∈ specStack toks p, k ≤ x := by
  have hs := specStack_sorted toks p
  cases hl : specStack toks p with
  | nil => rw [hl] at hk; cases hk
  | cons a rest =>
      rw [hl] at hk hs
      simp only [List.head?] at hk
      obtain rfl : a = k := by injection hk
      intro x hx
      rcases List.mem_cons.mp hx with rfl | hx
      · exact Nat.le_refl x
      · exact Nat.le_of_lt ((List.sorted_cons.mp hs).1 x hx)

end Lishp
namespace Lishp

theorem parseAtom_of_none {s : PState}
    (ht : s.tokens[s.position]? = none) :
    parseAtom s = (.err (eofErr s), s) := by
  rw [parseAtom, ht]

theorem parseAtom_state_of_some {s : PState} {t : Token}
    (ht : s.tokens[s.position]? = some t) :
    (parseAtom s).2 = { s with position := s.position + 1 } := by
  simp only [parseAtom, ht]
  repeat' split
  all_goals rfl

theorem parseAtom_no_eof_of_some {s : PState} {t : Token}
    (ht : s.tokens[s.position]? = some t) :
    ∀ k, (parseAtom s).1 ≠ .err (.EOF k) := by
  simp only [parseAtom, ht]
  repeat' split
  all_goals intro k h
  all_goals simp at h

/-- The facts about a parser-step result `out`, run from `s₀`, that the
error-position claims need: the token list is unchanged, the paren stack of
the final state is the unmatched-open-paren stack of the consumed prefix,
and any `EOF` error payload is the head of that stack (0 if empty). -/
def StackOK (s₀ : PState) (out : POut × PState) : Prop :=
  out.2.tokens = s₀.tokens ∧
  out.2.parens = specStack s₀.tokens out.2.position ∧
  ∀ k, out.1 = .err (.EOF k) → k = ((out.2.parens).head?).getD 0

theorem StackOK.retokens {s₁ s₂ : PState} {out : POut × PState}
    (h : StackOK s₁ out) (ht : s₁.tokens = s₂.tokens) : StackOK s₂ out := by
  unfold StackOK at h ⊢
  rw [← ht]
  exact h

theorem parseAtom_stack (s : PState)
    (hInv : s.parens = specStack s.tokens s.position)
    (hnoOpen : ∀ t, s.tokens[s.position]? = some t → t.value ≠ ['('])
    (hclose : ∀ t, s.tokens[s.position]? = some t → t.value = [')'] →
        s.parens = []) :
    StackOK s (parseAtom s) := by
  cases ht : s.tokens[s.position]? with
  | none =>
      rw [parseAtom_of_none ht]
      refine ⟨rfl, hInv, ?_⟩
      intro k h
      rw [eofErr] at h
      injection h with h'
      injection h' with h''
      rw [h'']
  | some t =>
      have hst := parseAtom_state_of_some ht
      refine ⟨by rw [hst], ?_, ?_⟩
      · rw [hst]
        show s.parens = specStack s.tokens (s.position + 1)
        rw [specStack]
        simp only [ht]
        by_cases hop : t.value = ['(']
        · exact absurd hop (hnoOpen t ht)
        · by_cases hcl : t.value = [')']
          · simp only [hop, hcl, reduceIte]
            rw [← hInv, hclose t ht hcl]
            rfl
          · simp only [hop, hcl, reduceIte]
            exact hInv
      · intro k h
        exact absurd h (parseAtom_no_eof_of_some ht k)

end Lishp
namespace Lishp

/-- State after consuming a `(` (as in `chomp_open_paren`). -/
def pushState (s : PState) : PState :=
  { s with position := s.position + 1, parens := s.parens ++ [s.position] }

/-- State after consuming a `)` (as in `chomp_close_paren`). -/
def popState (s : PState) : PState :=
  { s with position := s.position + 1, parens := s.parens.dropLast }

theorem chompOpen_eq_some {s : PState} {t : Token}
    (ht : s.tokens[s.position]? = some t) (hop : t.value = ['(']) :
    chompOpen s = (some t, pushState s) := by
  simp only [chompOpen, ht, hop, reduceIte]
  rfl

theorem chompOpen_eq_none_of_some {s : PState} {t : Token}
    (ht : s.tokens[s.position]? = some t) (hop : ¬ t.value = ['(']) :
    chompOpen s = (none, s) := by
  simp only [chompOpen, ht, hop, reduceIte]

theorem chompOpen_eq_none_of_none {s : PState}
    (ht : s.tokens[s.position]? = none) :
    chompOpen s = (none, s) := by
  rw [chompOpen, ht]

theorem chompClose_eq_some {s : PState} {t : Token}
    (ht : s.tokens[s.position]? = some t) (hcv : t.value = [')']) :
    chompClose s = (some t, popState s) := by
  simp only [chompClose, ht, hcv, reduceIte]
  rfl

theorem chompClose_eq_none_of_some {s : PState} {t : Token}
    (ht : s.tokens[s.position]? = some t) (hcv : ¬ t.value = [')']) :
    chompClose s = (none, s) := by
  simp only [chompClose, ht, hcv, reduceIte]

theorem chompClose_eq_none_of_none {s : PState}
    (ht : s.tokens[s.position]? = none) :
    chompClose s = (none, s) := by
  rw [chompClose, ht]

theorem parseForm_parseList_stack :
    ∀ fuel : Nat,
      (∀ s : PState, s.parens = specStack s.tokens s.position →
        (∀ t, s.tokens[s.position]? = some t → t.value = [')'] →
            s.parens = []) →
        StackOK s (parseForm fuel s)) ∧
      (∀ (comps : List Ty) (s : PState),
        s.parens = specStack s.tokens s.position →
        StackOK s (parseList fuel comps s)) := by
  intro fuel
  induction fuel with
  | zero =>
      constructor
      · intro s hInv hcl
        exact ⟨rfl, hInv, fun k h => by simp [parseForm] at h⟩
      · intro comps s hInv
        exact ⟨rfl, hInv, fun k h => by simp [parseList] at h⟩
  | succ f ih =>
      obtain ⟨ihF, ihL⟩ := ih
      constructor
      · intro s hInv hcl
        rw [parseForm]
        by_cases h0 : s.tokens.length = 0
        · rw [if_pos h0]
          exact ⟨rfl, hInv, fun k h => by simp at h⟩
        · rw [if_neg h0]
          cases ht : s.tokens[s.position]? with
          | none =>
              rw [chompOpen_eq_none_of_none ht]
              show StackOK s (parseAtom s)
              exact parseAtom_stack s hInv
                (fun t' ht' => by rw [ht] at ht'; cases ht') hcl
          | some t =>
              by_cases hop : t.value = ['(']
              · rw [chompOpen_eq_some ht hop]
                show StackOK s (parseList f [] (pushState s))
                have hInv' : (pushState s).parens =
                    specStack (pushState s).tokens (pushState s).position := by
                  show s.parens ++ [s.position] = specStack s.tokens (s.position + 1)
                  rw [specStack]
                  simp only [ht, hop, reduceIte]
                  rw [hInv]
                exact (ihL [] (pushState s) hInv').retokens rfl
              · rw [chompOpen_eq_none_of_some ht hop]
                show StackOK s (parseAtom s)
                refine parseAtom_stack s hInv ?_ hcl
                intro t' ht'
                rw [ht] at ht'
                injection ht' with h'
                rw [← h']
                exact hop
      · intro comps s hInv
        rw [parseList]
        cases ht : s.tokens[s.position]? with
        | none =>
            rw [chompClose_eq_none_of_none ht]
            have hF := ihF s hInv (fun t' ht' => by rw [ht] at ht'; cases ht')
            rcases hpf : parseForm f s with ⟨r, s1⟩
            rw [hpf] at hF
            cases r with
            | ok v =>
                have hInv1 : s1.parens = specStack s1.tokens s1.position := by
                  rw [hF.1]
                  exact hF.2.1
                exact (ihL (comps ++ [v]) s1 hInv1).retokens hF.1
            | err e => exact hF
            | panicked => exact hF
            | nofuel => exact hF
        | some t =>
            by_cases hcv : t.value = [')']
            · rw [chompClose_eq_some ht hcv]
              refine ⟨rfl, ?_, fun k h => by simp at h⟩
              show s.parens.dropLast = specStack s.tokens (s.position + 1)
              rw [specStack]
              simp only [ht, hcv, reduceIte]
              rw [hInv, if_neg (by decide : ¬ ([')'] : Str) = ['('])]
            · rw [chompClose_eq_none_of_some ht hcv]
              have hF := ihF s hInv (fun t' ht' hv => by
                rw [ht] at ht'
                injection ht' with h'
                rw [← h'] at hv
                exact absurd hv hcv)
              rcases hpf : parseForm f s with ⟨r, s1⟩
              rw [hpf] at hF
              cases r with
              | ok v =>
                  have hInv1 : s1.parens = specStack s1.tokens s1.position := by
                    rw [hF.1]
                    exact hF.2.1
                  exact (ihL (comps ++ [v]) s1 hInv1).retokens hF.1
              | err e => exact hF
              | panicked => exact hF
              | nofuel => exact hF

end Lishp
namespace Lishp

/-- C2 (amended).  Whenever `Parser::parse` fails with `EOF`, the error
payload is the *index in the (whitespace-filtered) token stream* of the
oldest still-open parenthesis at the point of failure — the head of the
unmatched-open stack of the consumed prefix, which is never an inner (more
recently opened) parenthesis's index, as every other stack entry is at
least as large (second conjunct) — or `0` if no parenthesis was open.  It
is the token index, not the source-text position, that is carried:
`chomp_open_paren` pushes `self.position`, the cursor into the token
vector (see `c2_counterexample` for the discrepancy). -/
theorem c2_eof_carries_oldest_open_index :
    ∀ (toks : List Token) (k : Nat) (s' : PState),
      parseRun toks = (.err (.EOF k), s') →
      k = ((specStack toks s'.position).head?).getD 0 ∧
      ∀ x ∈ specStack toks s'.position, k ≤ x := by
  intro toks k s' hrun
  have h0 := (parseForm_parseList_stack (parseFuel toks)).1
    ⟨toks, 0, []⟩ rfl (fun _ _ _ => rfl)
  rw [parseRun] at hrun
  rcases hpf : parseForm (parseFuel toks) ⟨toks, 0, []⟩ with ⟨r, s1⟩
  rw [hpf] at hrun h0
  have key : s' = s1 ∧ k = ((s1.parens).head?).getD 0 := by
    cases r with
    | ok ast =>
        replace hrun :
            (if s1.position ≠ toks.length then (POut.err (eofErr s1), s1)
             else (POut.ok ast, s1)) = (POut.err (.EOF k), s') := hrun
        by_cases hpos : s1.position ≠ toks.length
        · rw [if_pos hpos] at hrun
          injection hrun with h1 h2
          injection h1 with h1
          injection h1 with h1
          exact ⟨h2.symm, h1.symm⟩
        · rw [if_neg hpos] at hrun
          exact absurd hrun (by simp)
    | err e =>
        injection hrun with h1 h2
        refine ⟨h2.symm, h0.2.2 k ?_⟩
        rw [h1]
    | panicked => exact absurd hrun (by simp)
    | nofuel => exact absurd hrun (by simp)
  obtain ⟨rfl, hk⟩ := key
  have hp : s'.parens = specStack toks s'.position := h0.2.1
  rw [hp] at hk
  refine ⟨hk, ?_⟩
  intro x hx
  cases hhd : (specStack toks s'.position).head? with
  | none =>
      rw [List.head?_eq_none_iff] at hhd
      rw [hhd] at hx
      cases hx
  | some a =>
      rw [hhd] at hk
      rw [hk]
      exact specStack_head_le toks s'.position a hhd x hx

/-- Witness for `c2_eof_carries_oldest_open_index` on the unclosed input
`"("`: parsing stops at token index 1 with the open paren of index 0 still
unmatched, and the `EOF` payload 0 is its token index. -/
theorem c2_eof_carries_oldest_open_index_witness :
    (0 : Nat) =
      ((specStack [(⟨['('], ⟨0, 1⟩⟩ : Token)]
        (⟨[(⟨['('], ⟨0, 1⟩⟩ : Token)], 1, [0]⟩ : PState).position).head?).getD 0 ∧
    ∀ x ∈ specStack [(⟨['('], ⟨0, 1⟩⟩ : Token)]
        (⟨[(⟨['('], ⟨0, 1⟩⟩ : Token)], 1, [0]⟩ : PState).position, 0 ≤ x :=
  c2_eof_carries_oldest_open_index [⟨['('], ⟨0, 1⟩⟩] 0
    ⟨[⟨['('], ⟨0, 1⟩⟩], 1, [0]⟩ rfl

/-- C2, counterexample to the claim as stated.  On the source `" (foo"`
(note the leading space) the oldest still-open parenthesis sits at *source
position 1* — its token's span is `[1, 2)` — but the parser pushes token
indices, so the error is `EOF(0)`: the claimed "source position of the
oldest still-open parenthesis" (1) is not what the error carries (0). -/
theorem c2_counterexample :
    tokenize (" (foo".toList) =
      .ok [⟨['('], ⟨1, 2⟩⟩, ⟨"foo".toList, ⟨2, 5⟩⟩] ∧
    parse [⟨['('], ⟨1, 2⟩⟩, ⟨"foo".toList, ⟨2, 5⟩⟩] = .err (.EOF 0) ∧
    pipeline (" (foo".toList) = .parseErr (.EOF 0) ∧
    (⟨['('], ⟨1, 2⟩⟩ : Token).span.start = 1 ∧
    (0 : Nat) ≠ 1 :=
  ⟨rfl, rfl, rfl, rfl, by decide⟩

end Lishp
namespace Lishp

theorem takeWhile_pos_head {p : Char → Bool} {s : Str}
    (h : (s.takeWhile p).length ≠ 0) : ∃ c, s.head? = some c ∧ p c := by
  cases s with
  | nil => simp at h
  | cons c cs =>
      by_cases hc : p c
      · exact ⟨c, rfl, hc⟩
      · rw [List.takeWhile_cons, if_neg (by simp [hc])] at h
        simp at h

theorem take_head {s : Str} {n : Nat} (h : 1 ≤ n) :
    (s.take n).head? = s.head? := by
  cases s <;> cases n <;> simp_all

theorem getLast?_cons_of_ne_nil {c : Char} {l : Str} (h : l ≠ []) :
    (c :: l).getLast? = l.getLast? := by
  cases l with
  | nil => exact absurd rfl h
  | cons b t => rfl

end Lishp
namespace Lishp

theorem take_ne_nil_of_le {l : Str} {m : Nat} (h1 : 1 ≤ m)
    (h2 : m ≤ l.length) : l.take m ≠ [] := by
  intro hnil
  have h := congrArg List.length hnil
  rw [List.length_take] at h
  simp only [List.length_nil] at h
  omega

theorem matchStrTail_spec :
    ∀ (N : Nat) (r : Str), r.length ≤ N → ∀ m, matchStrTail r = some m →
      1 ≤ m ∧ m ≤ r.length ∧ (r.take m).getLast? = some '"' := by
  intro N
  induction N with
  | zero =>
      intro r hr m h
      have : r = [] := List.eq_nil_of_length_eq_zero (by omega)
      subst this
      simp [matchStrTail] at h
  | succ N ih =>
      intro r hr m h
      cases r with
      | nil => simp [matchStrTail] at h
      | cons c rest =>
          rw [matchStrTail] at h
          by_cases hq : c = '"'
          · rw [if_pos hq] at h
            injection h with h
            subst h
            exact ⟨Nat.le_refl 1, by simp, by rw [hq]; rfl⟩
          · rw [if_neg hq] at h
            by_cases hbs : c = '\\'
            · rw [if_pos hbs] at h
              cases rest with
              | nil => simp [matchStrEsc] at h
              | cons c2 rest2 =>
                  rw [matchStrEsc] at h
                  by_cases hn : c2 = '\n'
                  · rw [if_pos hn] at h; cases h
                  · rw [if_neg hn] at h
                    obtain ⟨m', hm', rfl⟩ := Option.map_eq_some'.mp h
                    have hlen : rest2.length ≤ N := by
                      simp only [List.length_cons] at hr; omega
                    obtain ⟨h1, h2, h3⟩ := ih rest2 hlen m' hm'
                    refine ⟨by omega, by simp only [List.length_cons]; omega, ?_⟩
                    show ((c :: c2 :: rest2).take (m' + 1 + 1)).getLast? = some '"'
                    rw [List.take_succ_cons, List.take_succ_cons]
                    rw [getLast?_cons_of_ne_nil (by simp),
                        getLast?_cons_of_ne_nil (take_ne_nil_of_le h1 h2)]
                    exact h3
            · rw [if_neg hbs] at h
              obtain ⟨m', hm', rfl⟩ := Option.map_eq_some'.mp h
              have hlen : rest.length ≤ N := by
                simp only [List.length_cons] at hr; omega
              obtain ⟨h1, h2, h3⟩ := ih rest hlen m' hm'
              refine ⟨by omega, by simp only [List.length_cons]; omega, ?_⟩
              show ((c :: rest).take (m' + 1)).getLast? = some '"'
              rw [List.take_succ_cons,
                  getLast?_cons_of_ne_nil (take_ne_nil_of_le h1 h2)]
              exact h3

theorem matchStringLen_spec {s : Str} {n : Nat}
    (h : matchStringLen s = some n) :
    2 ≤ n ∧ n ≤ s.length ∧ s.head? = some '"' ∧
      (s.take n).getLast? = some '"' := by
  cases s with
  | nil => simp [matchStringLen] at h
  | cons c rest =>
      rw [matchStringLen] at h
      by_cases hq : c = '"'
      · rw [if_pos hq] at h
        obtain ⟨m, hm, rfl⟩ := Option.map_eq_some'.mp h
        obtain ⟨h1, h2, h3⟩ := matchStrTail_spec rest.length rest
          (Nat.le_refl _) m hm
        refine ⟨by omega, by simp only [List.length_cons]; omega,
          by rw [hq]; rfl, ?_⟩
        show ((c :: rest).take (m + 1)).getLast? = some '"'
        rw [List.take_succ_cons,
            getLast?_cons_of_ne_nil (take_ne_nil_of_le h1 h2)]
        exact h3
      · rw [if_neg hq] at h
        cases h

theorem findComment_spec :
    ∀ (s : Str) (ls : Bool) (a b : Nat), findComment s ls = some (a, b) →
      a < b ∧ b ≤ s.length ∧ (s.drop a).head? = some ';' := by
  intro s
  induction s with
  | nil => intro ls a b h; simp [findComment] at h
  | cons c rest ih =>
      intro ls a b h
      rw [findComment] at h
      by_cases hsc : (ls && c = ';') = true
      · rw [if_pos hsc] at h
        injection h with h
        obtain ⟨ha, hb⟩ := Prod.mk.injEq .. ▸ h
        have hc : c = ';' := by
          have := (Bool.and_eq_true ls (decide (c = ';'))).mp hsc
          exact of_decide_eq_true this.2
        subst ha
        refine ⟨by omega, ?_, by simp [hc]⟩
        have hle : (rest.takeWhile (fun c2 => decide (c2 ≠ '\n'))).length ≤
            rest.length := (List.takeWhile_sublist _).length_le
        simp only [List.length_cons]
        omega
      · rw [if_neg hsc] at h
        obtain ⟨⟨a', b'⟩, hrec, heq⟩ := Option.map_eq_some'.mp h
        obtain ⟨ha, hb⟩ := Prod.mk.injEq .. ▸ heq
        subst ha
        subst hb
        obtain ⟨h1, h2, h3⟩ := ih (c = '\n') a' b' hrec
        refine ⟨by omega, by simp only [List.length_cons]; omega, ?_⟩
        show ((c :: rest).drop (a' + 1)).head? = some ';'
        rw [List.drop_succ_cons]
        exact h3

end Lishp
namespace Lishp

theorem head_ne_quote_of_pred {p : Char → Bool} {s : Str}
    (hp : p '"' = false) (h : (s.takeWhile p).length ≠ 0) :
    ∀ c, s.head? = some c → c ≠ '"' := by
  intro c hc heq
  obtain ⟨c', hc', hpc⟩ := takeWhile_pos_head h
  rw [hc] at hc'
  injection hc' with h'
  rw [← h', heq] at hpc
  rw [hp] at hpc
  cases hpc

theorem matchFloatLen_shape {s : Str} {n : Nat} (h : matchFloatLen s = some n) :
    1 ≤ n ∧ ∀ c, s.head? = some c → c ≠ '"' := by
  have hd0 : digitRun s ≠ 0 := by
    intro h0
    rw [matchFloatLen] at h
    simp only [h0, reduceIte] at h
    exact Option.noConfusion h
  constructor
  · rw [matchFloatLen] at h
    simp only [if_neg hd0] at h
    rcases hdrop : s.drop (digitRun s) with _ | ⟨c, rest⟩ <;> rw [hdrop] at h
    · injection h with h
      omega
    · replace h :
          (if c = '.' then
            (if digitRun rest = 0 then some (digitRun s)
             else some (digitRun s + 1 + digitRun rest))
           else some (digitRun s)) = some n := h
      by_cases hdot : c = '.'
      · rw [if_pos hdot] at h
        by_cases hd2 : digitRun rest = 0
        · rw [if_pos hd2] at h
          injection h with h
          omega
        · rw [if_neg hd2] at h
          injection h with h
          omega
      · rw [if_neg hdot] at h
        injection h with h
        omega
  · exact head_ne_quote_of_pred (by decide) hd0

theorem matchIntLen_shape {s : Str} {n : Nat} (h : matchIntLen s = some n) :
    1 ≤ n ∧ ∀ c, s.head? = some c → c ≠ '"' := by
  cases s with
  | nil => simp [matchIntLen] at h
  | cons c rest =>
      rw [matchIntLen] at h
      by_cases hminus : c = '-'
      · rw [if_pos hminus] at h
        by_cases hd : digitRun rest = 0
        · rw [if_pos hd] at h; cases h
        · rw [if_neg hd] at h
          injection h with h
          refine ⟨by omega, ?_⟩
          intro c' hc' heq
          injection hc' with h'
          exact absurd (heq.symm.trans (h'.symm.trans hminus)) (by decide)
      · rw [if_neg hminus] at h
        by_cases hd : digitRun (c :: rest) = 0
        · rw [if_pos hd] at h; cases h
        · rw [if_neg hd] at h
          injection h with h
          exact ⟨by omega, head_ne_quote_of_pred (by decide) hd⟩

theorem matchOpenLen_shape {s : Str} {n : Nat} (h : matchOpenLen s = some n) :
    1 ≤ n ∧ ∀ c, s.head? = some c → c ≠ '"' := by
  cases s with
  | nil => simp [matchOpenLen] at h
  | cons c rest =>
      rw [matchOpenLen] at h
      by_cases hc : c = '('
      · rw [if_pos hc] at h
        injection h with h
        refine ⟨by omega, ?_⟩
        intro c' hc' heq
        injection hc' with h'
        exact absurd (heq.symm.trans (h'.symm.trans hc)) (by decide)
      · rw [if_neg hc] at h; cases h

theorem matchCloseLen_shape {s : Str} {n : Nat} (h : matchCloseLen s = some n) :
    1 ≤ n ∧ ∀ c, s.head? = some c → c ≠ '"' := by
  cases s with
  | nil => simp [matchCloseLen] at h
  | cons c rest =>
      rw [matchCloseLen] at h
      by_cases hc : c = ')'
      · rw [if_pos hc] at h
        injection h with h
        refine ⟨by omega, ?_⟩
        intro c' hc' heq
        injection hc' with h'
        exact absurd (heq.symm.trans (h'.symm.trans hc)) (by decide)
      · rw [if_neg hc] at h; cases h

theorem matchIdentLen_shape {s : Str} {n : Nat} (h : matchIdentLen s = some n) :
    1 ≤ n ∧ ∀ c, s.head? = some c → c ≠ '"' := by
  cases s with
  | nil => simp [matchIdentLen] at h
  | cons c rest =>
      rw [matchIdentLen] at h
      by_cases hc : isIdentStart c
      · rw [if_pos hc] at h
        injection h with h
        refine ⟨by omega, ?_⟩
        intro c' hc' heq
        injection hc' with h'
        exact absurd (by rw [← heq, ← h']; exact hc : isIdentStart '"' = true)
          (by decide)
      · rw [if_neg hc] at h; cases h

theorem matchWsLen_shape {s : Str} {n : Nat} (h : matchWsLen s = some n) :
    1 ≤ n ∧ ∀ c, s.head? = some c → c ≠ '"' := by
  rw [matchWsLen] at h
  by_cases h0 : (s.takeWhile isRustWhitespace).length = 0
  · simp only [h0, reduceIte] at h
    exact Option.noConfusion h
  · simp only [if_neg h0] at h
    injection h with h
    exact ⟨by omega, head_ne_quote_of_pred (by decide) h0⟩

theorem anchored_eq_some {f : Str → Option Nat} {s : Str} {a b : Nat}
    (h : anchored f s = some (a, b)) : a = 0 ∧ f s = some b := by
  obtain ⟨n, hf, heq⟩ := Option.map_eq_some'.mp h
  obtain ⟨ha, hb⟩ := Prod.mk.injEq .. ▸ heq
  exact ⟨ha.symm, hb ▸ hf⟩

end Lishp
namespace Lishp

/-- The shape invariant `parse_atom`'s string branch relies on: if a token's
text begins with `"`, it has length at least 2 and ends with `"`. -/
def stringTokOK (t : Token) : Prop :=
  t.value.head? = some '"' → 2 ≤ t.value.length ∧ t.value.getLast? = some '"'

theorem nextToken_stringTokOK {source : Str} {pos : Nat} {tok : Token}
    (h : nextToken source pos = .ok (some tok)) : stringTokOK tok := by
  intro hq
  by_cases hge : pos ≥ source.length
  · rw [nextToken, if_pos hge] at h
    injection h with h
    exact Option.noConfusion h
  · rw [nextToken, if_neg hge] at h
    cases hm : firstMatch patterns (source.drop pos) with
    | none => rw [hm] at h; exact Except.noConfusion h
    | some r =>
        obtain ⟨a, b⟩ := r
        rw [hm] at h
        injection h with h
        injection h with h
        subst h
        obtain ⟨i, p, hget, hp, hprev⟩ := firstMatch_some hm
        rcases i with _|_|_|_|_|_|_|_|k
        · simp only [patterns, List.getElem?_cons_zero, Option.some.injEq] at hget
          rw [← hget] at hp
          obtain ⟨ha, hf⟩ := anchored_eq_some hp
          subst ha
          obtain ⟨hb1, hne⟩ := matchFloatLen_shape hf
          simp only [Nat.zero_add, Nat.sub_zero] at hq
          rw [take_head hb1] at hq
          exact absurd rfl (hne '"' hq)
        · simp only [patterns, List.getElem?_cons_succ, List.getElem?_cons_zero,
            Option.some.injEq] at hget
          rw [← hget] at hp
          obtain ⟨ha, hf⟩ := anchored_eq_some hp
          subst ha
          obtain ⟨hb1, hne⟩ := matchIntLen_shape hf
          simp only [Nat.zero_add, Nat.sub_zero] at hq
          rw [take_head hb1] at hq
          exact absurd rfl (hne '"' hq)
        · simp only [patterns, List.getElem?_cons_succ, List.getElem?_cons_zero,
            Option.some.injEq] at hget
          rw [← hget] at hp
          obtain ⟨ha, hf⟩ := anchored_eq_some hp
          subst ha
          obtain ⟨hb1, hne⟩ := matchOpenLen_shape hf
          simp only [Nat.zero_add, Nat.sub_zero] at hq
          rw [take_head hb1] at hq
          exact absurd rfl (hne '"' hq)
        · simp only [patterns, List.getElem?_cons_succ, List.getElem?_cons_zero,
            Option.some.injEq] at hget
          rw [← hget] at hp
          obtain ⟨ha, hf⟩ := anchored_eq_some hp
          subst ha
          obtain ⟨hb1, hne⟩ := matchCloseLen_shape hf
          simp only [Nat.zero_add, Nat.sub_zero] at hq
          rw [take_head hb1] at hq
          exact absurd rfl (hne '"' hq)
        · simp only [patterns, List.getElem?_cons_succ, List.getElem?_cons_zero,
            Option.some.injEq] at hget
          rw [← hget] at hp
          obtain ⟨ha, hf⟩ := anchored_eq_some hp
          subst ha
          obtain ⟨hb1, hne⟩ := matchIdentLen_shape hf
          simp only [Nat.zero_add, Nat.sub_zero] at hq
          rw [take_head hb1] at hq
          exact absurd rfl (hne '"' hq)
        · -- index 5: the string pattern itself
          simp only [patterns, List.getElem?_cons_succ, List.getElem?_cons_zero,
            Option.some.injEq] at hget
          rw [← hget] at hp
          obtain ⟨ha, hf⟩ := anchored_eq_some hp
          subst ha
          obtain ⟨hb2, hble, -, hlast⟩ := matchStringLen_spec hf
          simp only [Nat.zero_add, Nat.sub_zero]
          refine ⟨?_, hlast⟩
          rw [List.length_take]
          omega
        · -- index 6: the comment pattern
          simp only [patterns, List.getElem?_cons_succ, List.getElem?_cons_zero,
            Option.some.injEq] at hget
          rw [← hget] at hp
          obtain ⟨hab, hble, hsemi⟩ := findComment_spec (source.drop pos) true a b hp
          rw [show a + pos = pos + a from Nat.add_comm a pos] at hq
          rw [← List.drop_drop] at hq
          rw [take_head (by omega)] at hq
          rw [hsemi] at hq
          injection hq with hq
          exact absurd hq (by decide)
        · simp only [patterns, List.getElem?_cons_succ, List.getElem?_cons_zero,
            Option.some.injEq] at hget
          rw [← hget] at hp
          obtain ⟨ha, hf⟩ := anchored_eq_some hp
          subst ha
          obtain ⟨hb1, hne⟩ := matchWsLen_shape hf
          simp only [Nat.zero_add, Nat.sub_zero] at hq
          rw [take_head hb1] at hq
          exact absurd rfl (hne '"' hq)
        · simp [patterns] at hget

end Lishp
namespace Lishp

theorem tokenizeFrom_stringTokOK (source : Str) :
    ∀ (fuel pos : Nat) (toks : List Token),
      tokenizeFrom source fuel pos = .ok toks →
      ∀ t ∈ toks, stringTokOK t := by
  intro fuel
  induction fuel with
  | zero => intro pos toks h; cases h
  | succ f ih =>
      intro pos toks h
      rw [tokenizeFrom] at h
      cases hnt : nextToken source pos with
      | error e => rw [hnt] at h; cases h
      | ok o =>
          cases o with
          | none =>
              rw [hnt] at h
              injection h with h
              subst h
              intro t ht
              cases ht
          | some tok =>
              rw [hnt] at h
              replace h :
                  (match tokenizeFrom source f tok.span.stop with
                   | LexOut.ok rest =>
                       LexOut.ok (if isWhitespaceTok tok then rest
                                  else tok :: rest)
                   | other => other) = LexOut.ok toks := h
              cases hrec : tokenizeFrom source f tok.span.stop with
              | ok rest =>
                  rw [hrec] at h
                  injection h with h
                  subst h
                  intro t ht
                  by_cases hws : isWhitespaceTok tok
                  · rw [if_pos hws] at ht
                    exact ih tok.span.stop rest hrec t ht
                  · rw [if_neg hws] at ht
                    rcases List.mem_cons.mp ht with rfl | ht
                    · exact nextToken_stringTokOK hnt
                    · exact ih tok.span.stop rest hrec t ht
              | err e => rw [hrec] at h; cases h
              | nofuel => rw [hrec] at h; cases h

theorem tokenize_stringTokOK {source : Str} {toks : List Token}
    (h : tokenize source = .ok toks) : ∀ t ∈ toks, stringTokOK t :=
  tokenizeFrom_stringTokOK source (source.length + 1) 0 toks h

theorem parseAtom_tokens (s : PState) : (parseAtom s).2.tokens = s.tokens := by
  cases ht : s.tokens[s.position]? with
  | none => rw [parseAtom_of_none ht]
  | some t => rw [parseAtom_state_of_some ht]

theorem parseForm_parseList_tokens :
    ∀ fuel : Nat,
      (∀ s : PState, (parseForm fuel s).2.tokens = s.tokens) ∧
      (∀ (comps : List Ty) (s : PState),
        (parseList fuel comps s).2.tokens = s.tokens) := by
  intro fuel
  induction fuel with
  | zero => exact ⟨fun s => rfl, fun comps s => rfl⟩
  | succ f ih =>
      obtain ⟨ihF, ihL⟩ := ih
      constructor
      · intro s
        rw [parseForm]
        by_cases h0 : s.tokens.length = 0
        · rw [if_pos h0]
        · rw [if_neg h0]
          cases ht : s.tokens[s.position]? with
          | none =>
              rw [chompOpen_eq_none_of_none ht]
              exact parseAtom_tokens s
          | some t =>
              by_cases hop : t.value = ['(']
              · rw [chompOpen_eq_some ht hop]
                exact ihL [] (pushState s)
              · rw [chompOpen_eq_none_of_some ht hop]
                exact parseAtom_tokens s
      · intro comps s
        rw [parseList]
        cases ht : s.tokens[s.position]? with
        | none =>
            rw [chompClose_eq_none_of_none ht]
            rcases hpf : parseForm f s with ⟨r, s1⟩
            have hs1 : s1.tokens = s.tokens := by
              have := ihF s
              rw [hpf] at this
              exact this
            cases r with
            | ok v => rw [ihL (comps ++ [v]) s1]; exact hs1
            | err e => exact hs1
            | panicked => exact hs1
            | nofuel => exact hs1
        | some t =>
            by_cases hcv : t.value = [')']
            · rw [chompClose_eq_some ht hcv]
              rfl
            · rw [chompClose_eq_none_of_some ht hcv]
              rcases hpf : parseForm f s with ⟨r, s1⟩
              have hs1 : s1.tokens = s.tokens := by
                have := ihF s
                rw [hpf] at this
                exact this
              cases r with
              | ok v => rw [ihL (comps ++ [v]) s1]; exact hs1
              | err e => exact hs1
              | panicked => exact hs1
              | nofuel => exact hs1

theorem parseAtom_no_panic {s : PState}
    (hok : ∀ t ∈ s.tokens, stringTokOK t) :
    (parseAtom s).1 ≠ .panicked := by
  intro hp
  cases ht : s.tokens[s.position]? with
  | none => rw [parseAtom_of_none ht] at hp; cases hp
  | some t =>
      have htm : t ∈ s.tokens := List.getElem?_mem ht
      have hstr := hok t htm
      simp only [parseAtom, ht] at hp
      by_cases hnum : startsWithNumber t = true
      · simp only [hnum, reduceIte] at hp
        cases hI : parseI64 t.value <;> rw [hI] at hp
        · cases hF : parseF64 t.value <;> rw [hF] at hp <;> cases hp
        · cases hp
      · simp only [hnum, Bool.false_eq_true, reduceIte] at hp
        by_cases hq : t.value.head? = some '"'
        · simp only [hq, reduceIte] at hp
          obtain ⟨hlen, -⟩ := hstr hq
          rw [if_neg (by omega)] at hp
          cases hp
        · simp only [hq, reduceIte] at hp
          by_cases h1 : t.value = "nil".toList
          · rw [if_pos h1] at hp; cases hp
          · rw [if_neg h1] at hp
            by_cases h2 : t.value = "true".toList
            · rw [if_pos h2] at hp; cases hp
            · rw [if_neg h2] at hp
              by_cases h3 : t.value = "false".toList
              · rw [if_pos h3] at hp; cases hp
              · rw [if_neg h3] at hp; cases hp

theorem parseForm_parseList_no_panic :
    ∀ fuel : Nat,
      (∀ s : PState, (∀ t ∈ s.tokens, stringTokOK t) →
        (parseForm fuel s).1 ≠ .panicked) ∧
      (∀ (comps : List Ty) (s : PState), (∀ t ∈ s.tokens, stringTokOK t) →
        (parseList fuel comps s).1 ≠ .panicked) := by
  intro fuel
  induction fuel with
  | zero =>
      constructor
      · intro s hok hp; rw [parseForm] at hp; cases hp
      · intro comps s hok hp; rw [parseList] at hp; cases hp
  | succ f ih =>
      obtain ⟨ihF, ihL⟩ := ih
      constructor
      · intro s hok
        rw [parseForm]
        by_cases h0 : s.tokens.length = 0
        · rw [if_pos h0]; intro hp; cases hp
        · rw [if_neg h0]
          cases ht : s.tokens[s.position]? with
          | none =>
              rw [chompOpen_eq_none_of_none ht]
              exact parseAtom_no_panic hok
          | some t =>
              by_cases hop : t.value = ['(']
              · rw [chompOpen_eq_some ht hop]
                exact ihL [] (pushState s) hok
              · rw [chompOpen_eq_none_of_some ht hop]
                exact parseAtom_no_panic hok
      · intro comps s hok
        rw [parseList]
        cases ht : s.tokens[s.position]? with
        | none =>
            rw [chompClose_eq_none_of_none ht]
            rcases hpf : parseForm f s with ⟨r, s1⟩
            have hFtok : s1.tokens = s.tokens := by
              have := (parseForm_parseList_tokens f).1 s
              rw [hpf] at this
              exact this
            cases r with
            | ok v =>
                refine ihL (comps ++ [v]) s1 ?_
                rw [hFtok]
                exact hok
            | err e => intro hp; cases hp
            | panicked =>
                have := ihF s hok
                rw [hpf] at this
                exact absurd rfl this
            | nofuel => intro hp; cases hp
        | some t =>
            by_cases hcv : t.value = [')']
            · rw [chompClose_eq_some ht hcv]
              intro hp; cases hp
            · rw [chompClose_eq_none_of_some ht hcv]
              rcases hpf : parseForm f s with ⟨r, s1⟩
              have hFtok : s1.tokens = s.tokens := by
                have := (parseForm_parseList_tokens f).1 s
                rw [hpf] at this
                exact this
              cases r with
              | ok v =>
                  refine ihL (comps ++ [v]) s1 ?_
                  rw [hFtok]
                  exact hok
              | err e => intro hp; cases hp
              | panicked =>
                  have := ihF s hok
                  rw [hpf] at this
                  exact absurd rfl this
              | nofuel => intro hp; cases hp

end Lishp
namespace Lishp

theorem parse_no_panic {toks : List Token}
    (hok : ∀ t ∈ toks, stringTokOK t) : parse toks ≠ .panicked := by
  rw [parse, parseRun]
  rcases hpf : parseForm (parseFuel toks) ⟨toks, 0, []⟩ with ⟨r, s1⟩
  have hnp := (parseForm_parseList_no_panic (parseFuel toks)).1
    ⟨toks, 0, []⟩ hok
  rw [hpf] at hnp
  cases r with
  | ok ast =>
      show (if s1.position ≠ toks.length then (POut.err (eofErr s1), s1)
            else (POut.ok ast, s1)).1 ≠ POut.panicked
      by_cases hpos : s1.position ≠ toks.length
      · rw [if_pos hpos]
        intro h; cases h
      · rw [if_neg hpos]
        intro h; cases h
  | err e => intro h; cases h
  | panicked => exact absurd rfl hnp
  | nofuel => intro h; cases h

/-- C10.  Safety of the whole pipeline: for any token list produced by a
successful `tokenize`, `Parser::parse` never panics (conjunct 1), because
every lexed token that begins with `"` has length at least 2 and ends with
`"` — only the string pattern can produce a quote-initial token (conjunct
2) — which is precisely what `parse_atom`'s unconditional
`letters.pop(); letters.remove(0)` relies on.  A hand-constructed token
stream containing the single-character token `"\""` violates the
precondition and makes `parse` panic (conjunct 3: `remove(0)` on an empty
vector, and `debug_assert!(letters.len() >= 2)` in debug builds). -/
theorem c10_parse_never_panics_on_lexed_tokens :
    (∀ (source : Str) (toks : List Token), tokenize source = .ok toks →
        parse toks ≠ .panicked) ∧
    (∀ (source : Str) (toks : List Token) (t : Token),
        tokenize source = .ok toks → t ∈ toks →
        t.value.head? = some '"' →
        2 ≤ t.value.length ∧ t.value.getLast? = some '"') ∧
    parse [⟨['"'], ⟨0, 1⟩⟩] = .panicked := by
  refine ⟨?_, ?_, rfl⟩
  · intro source toks h
    exact parse_no_panic (tokenize_stringTokOK h)
  · intro source toks t h htm hq
    exact tokenize_stringTokOK h t htm hq

/-- Witness for `c10_parse_never_panics_on_lexed_tokens` on the source
`"\"ab\""`, whose single token is the four-character string literal. -/
theorem c10_parse_never_panics_on_lexed_tokens_witness :
    parse [⟨['"', 'a', 'b', '"'], ⟨0, 4⟩⟩] ≠ .panicked ∧
    (2 ≤ (⟨['"', 'a', 'b', '"'], ⟨0, 4⟩⟩ : Token).value.length ∧
      (⟨['"', 'a', 'b', '"'], ⟨0, 4⟩⟩ : Token).value.getLast? = some '"') :=
  ⟨c10_parse_never_panics_on_lexed_tokens.1 ("\"ab\"".toList)
      [⟨['"', 'a', 'b', '"'], ⟨0, 4⟩⟩] rfl,
   c10_parse_never_panics_on_lexed_tokens.2.1 ("\"ab\"".toList)
      [⟨['"', 'a', 'b', '"'], ⟨0, 4⟩⟩] ⟨['"', 'a', 'b', '"'], ⟨0, 4⟩⟩ rfl
      (List.mem_singleton.mpr rfl) rfl⟩

end Lishp
namespace Lishp

theorem matchFloatLen_le {s : Str} {n : Nat} (h : matchFloatLen s = some n) :
    n ≤ s.length := by
  have hdle : digitRun s ≤ s.length := (List.takeWhile_sublist _).length_le
  rw [matchFloatLen] at h
  by_cases hd0 : digitRun s = 0
  · simp only [hd0, reduceIte] at h
    exact Option.noConfusion h
  · simp only [if_neg hd0] at h
    have hlen := List.length_drop (digitRun s) s
    rcases hdrop : s.drop (digitRun s) with _ | ⟨c, rest⟩ <;> rw [hdrop] at h hlen
    · injection h with h
      omega
    · replace h :
          (if c = '.' then
            (if digitRun rest = 0 then some (digitRun s)
             else some (digitRun s + 1 + digitRun rest))
           else some (digitRun s)) = some n := h
      have hd2le : digitRun rest ≤ rest.length :=
        (List.takeWhile_sublist _).length_le
      simp only [List.length_cons] at hlen
      by_cases hdot : c = '.'
      · rw [if_pos hdot] at h
        by_cases hd2 : digitRun rest = 0
        · rw [if_pos hd2] at h
          injection h with h
          omega
        · rw [if_neg hd2] at h
          injection h with h
          omega
      · rw [if_neg hdot] at h
        injection h with h
        omega

theorem matchIntLen_le {s : Str} {n : Nat} (h : matchIntLen s = some n) :
    n ≤ s.length := by
  cases s with
  | nil => simp [matchIntLen] at h
  | cons c rest =>
      rw [matchIntLen] at h
      have hd2le : digitRun rest ≤ rest.length :=
        (List.takeWhile_sublist _).length_le
      by_cases hminus : c = '-'
      · rw [if_pos hminus] at h
        by_cases hd : digitRun rest = 0
        · rw [if_pos hd] at h; cases h
        · rw [if_neg hd] at h
          injection h with h
          simp only [List.length_cons]
          omega
      · rw [if_neg hminus] at h
        have hdle : digitRun (c :: rest) ≤ (c :: rest).length :=
          (List.takeWhile_sublist _).length_le
        by_cases hd : digitRun (c :: rest) = 0
        · rw [if_pos hd] at h; cases h
        · rw [if_neg hd] at h
          injection h with h
          omega

theorem matchOpenLen_le {s : Str} {n : Nat} (h : matchOpenLen s = some n) :
    n ≤ s.length := by
  cases s with
  | nil => simp [matchOpenLen] at h
  | cons c rest =>
      rw [matchOpenLen] at h
      by_cases hc : c = '('
      · rw [if_pos hc] at h
        injection h with h
        simp only [List.length_cons]
        omega
      · rw [if_neg hc] at h; cases h

theorem matchCloseLen_le {s : Str} {n : Nat} (h : matchCloseLen s = some n) :
    n ≤ s.length := by
  cases s with
  | nil => simp [matchCloseLen] at h
  | cons c rest =>
      rw [matchCloseLen] at h
      by_cases hc : c = ')'
      · rw [if_pos hc] at h
        injection h with h
        simp only [List.length_cons]
        omega
      · rw [if_neg hc] at h; cases h

theorem matchIdentLen_le {s : Str} {n : Nat} (h : matchIdentLen s = some n) :
    n ≤ s.length := by
  cases s with
  | nil => simp [matchIdentLen] at h
  | cons c rest =>
      rw [matchIdentLen] at h
      have hle : (rest.takeWhile isIdentCont).length ≤ rest.length :=
        (List.takeWhile_sublist _).length_le
      by_cases hc : isIdentStart c
      · rw [if_pos hc] at h
        injection h with h
        simp only [List.length_cons]
        omega
      · rw [if_neg hc] at h; cases h

theorem matchWsLen_le {s : Str} {n : Nat} (h : matchWsLen s = some n) :
    n ≤ s.length := by
  rw [matchWsLen] at h
  have hle : (s.takeWhile isRustWhitespace).length ≤ s.length :=
    (List.takeWhile_sublist _).length_le
  by_cases h0 : (s.takeWhile isRustWhitespace).length = 0
  · simp only [h0, reduceIte] at h
    exact Option.noConfusion h
  · simp only [if_neg h0] at h
    injection h with h
    omega

theorem nextToken_bounds {source : Str} {pos : Nat} {tok : Token}
    (h : nextToken source pos = .ok (some tok)) :
    pos < tok.span.stop ∧ tok.span.stop ≤ source.length := by
  by_cases hge : pos ≥ source.length
  · rw [nextToken, if_pos hge] at h
    injection h with h
    exact Option.noConfusion h
  · rw [nextToken, if_neg hge] at h
    cases hm : firstMatch patterns (source.drop pos) with
    | none => rw [hm] at h; exact Except.noConfusion h
    | some r =>
        obtain ⟨a, b⟩ := r
        rw [hm] at h
        injection h with h
        injection h with h
        subst h
        have hsuf : (source.drop pos).length = source.length - pos :=
          List.length_drop pos source
        obtain ⟨i, p, hget, hp, hprev⟩ := firstMatch_some hm
        have key : a < b ∧ b ≤ (source.drop pos).length := by
          rcases i with _|_|_|_|_|_|_|_|k
          · simp only [patterns, List.getElem?_cons_zero,
              Option.some.injEq] at hget
            rw [← hget] at hp
            obtain ⟨ha, hf⟩ := anchored_eq_some hp
            subst ha
            exact ⟨(matchFloatLen_shape hf).1, matchFloatLen_le hf⟩
          · simp only [patterns, List.getElem?_cons_succ,
              List.getElem?_cons_zero, Option.some.injEq] at hget
            rw [← hget] at hp
            obtain ⟨ha, hf⟩ := anchored_eq_some hp
            subst ha
            exact ⟨(matchIntLen_shape hf).1, matchIntLen_le hf⟩
          · simp only [patterns, List.getElem?_cons_succ,
              List.getElem?_cons_zero, Option.some.injEq] at hget
            rw [← hget] at hp
            obtain ⟨ha, hf⟩ := anchored_eq_some hp
            subst ha
            exact ⟨(matchOpenLen_shape hf).1, matchOpenLen_le hf⟩
          · simp only [patterns, List.getElem?_cons_succ,
              List.getElem?_cons_zero, Option.some.injEq] at hget
            rw [← hget] at hp
            obtain ⟨ha, hf⟩ := anchored_eq_some hp
            subst ha
            exact ⟨(matchCloseLen_shape hf).1, matchCloseLen_le hf⟩
          · simp only [patterns, List.getElem?_cons_succ,
              List.getElem?_cons_zero, Option.some.injEq] at hget
            rw [← hget] at hp
            obtain ⟨ha, hf⟩ := anchored_eq_some hp
            subst ha
            exact ⟨(matchIdentLen_shape hf).1, matchIdentLen_le hf⟩
          · simp only [patterns, List.getElem?_cons_succ,
              List.getElem?_cons_zero, Option.some.injEq] at hget
            rw [← hget] at hp
            obtain ⟨ha, hf⟩ := anchored_eq_some hp
            subst ha
            obtain ⟨h2, hle, -, -⟩ := matchStringLen_spec hf
            exact ⟨by omega, hle⟩
          · simp only [patterns, List.getElem?_cons_succ,
              List.getElem?_cons_zero, Option.some.injEq] at hget
            rw [← hget] at hp
            obtain ⟨hab, hle, -⟩ :=
              findComment_spec (source.drop pos) true a b hp
            exact ⟨hab, hle⟩
          · simp only [patterns, List.getElem?_cons_succ,
              List.getElem?_cons_zero, Option.some.injEq] at hget
            rw [← hget] at hp
            obtain ⟨ha, hf⟩ := anchored_eq_some hp
            subst ha
            exact ⟨(matchWsLen_shape hf).1, matchWsLen_le hf⟩
          · simp [patterns] at hget
        show pos < b + pos ∧ b + pos ≤ source.length
        omega

theorem tokenizeFrom_ne_nofuel (source : Str) :
    ∀ (fuel pos : Nat), source.length - pos < fuel →
      tokenizeFrom source fuel pos ≠ .nofuel := by
  intro fuel
  induction fuel with
  | zero => intro pos h; omega
  | succ f ih =>
      intro pos hlt
      rw [tokenizeFrom]
      cases hnt : nextToken source pos with
      | error e => intro h; cases h
      | ok o =>
          cases o with
          | none => intro h; cases h
          | some tok =>
              show (match tokenizeFrom source f tok.span.stop with
                    | LexOut.ok rest =>
                        LexOut.ok (if isWhitespaceTok tok then rest
                                   else tok :: rest)
                    | other => other) ≠ LexOut.nofuel
              obtain ⟨h1, h2⟩ := nextToken_bounds hnt
              cases hrec : tokenizeFrom source f tok.span.stop with
              | ok rest => intro h; cases h
              | err e => intro h; cases h
              | nofuel =>
                  exact absurd hrec (ih tok.span.stop (by omega))

/-- The fuel given to `tokenize` always suffices: every produced token is
non-empty, so the cursor strictly advances. -/
theorem tokenize_ne_nofuel (source : Str) : tokenize source ≠ .nofuel :=
  tokenizeFrom_ne_nofuel source (source.length + 1) 0 (by omega)

end Lishp
namespace Lishp

theorem getElem?_some_lt {s : PState} {t : Token}
    (ht : s.tokens[s.position]? = some t) : s.position < s.tokens.length := by
  by_contra hge
  rw [List.getElem?_eq_none (by omega)] at ht
  cases ht

theorem parseAtom_progress (s : PState) (hpos : s.position ≤ s.tokens.length) :
    s.position ≤ (parseAtom s).2.position ∧
    (parseAtom s).2.position ≤ s.tokens.length ∧
    (∀ v s', parseAtom s = (.ok v, s') → s.position < s'.position) := by
  cases ht : s.tokens[s.position]? with
  | none =>
      rw [parseAtom_of_none ht]
      refine ⟨Nat.le_refl _, hpos, ?_⟩
      intro v s' h
      injection h with h1 h2
      cases h1
  | some t =>
      have hlt := getElem?_some_lt ht
      have hst := parseAtom_state_of_some ht
      have hsp : (parseAtom s).2.position = s.position + 1 := by rw [hst]
      refine ⟨by omega, by omega, ?_⟩
      intro v s' h
      have hs' : s'.position = s.position + 1 := by
        have he : s' = (parseAtom s).2 := by rw [h]
        rw [he, hsp]
      omega

theorem parseForm_parseList_progress :
    ∀ fuel : Nat,
      (∀ s : PState, s.position ≤ s.tokens.length →
        s.position ≤ (parseForm fuel s).2.position ∧
        (parseForm fuel s).2.position ≤ s.tokens.length ∧
        (∀ v s', parseForm fuel s = (.ok v, s') → s.tokens ≠ [] →
          s.position < s'.position)) ∧
      (∀ (comps : List Ty) (s : PState), s.position ≤ s.tokens.length →
        s.position ≤ (parseList fuel comps s).2.position ∧
        (parseList fuel comps s).2.position ≤ s.tokens.length ∧
        (∀ v s', parseList fuel comps s = (.ok v, s') →
          s.position < s'.position)) := by
  intro fuel
  induction fuel with
  | zero =>
      constructor
      · intro s hpos
        refine ⟨Nat.le_refl _, hpos, ?_⟩
        intro v s' h
        cases h
      · intro comps s hpos
        refine ⟨Nat.le_refl _, hpos, ?_⟩
        intro v s' h
        cases h
  | succ f ih =>
      obtain ⟨ihF, ihL⟩ := ih
      constructor
      · intro s hpos
        rw [parseForm]
        by_cases h0 : s.tokens.length = 0
        · rw [if_pos h0]
          refine ⟨Nat.le_refl _, hpos, ?_⟩
          intro v s' h hne
          exact absurd (List.eq_nil_of_length_eq_zero h0) hne
        · rw [if_neg h0]
          cases ht : s.tokens[s.position]? with
          | none =>
              rw [chompOpen_eq_none_of_none ht]
              obtain ⟨p1, p2, p3⟩ := parseAtom_progress s hpos
              exact ⟨p1, p2, fun v s' h hne => p3 v s' h⟩
          | some t =>
              by_cases hop : t.value = ['(']
              · rw [chompOpen_eq_some ht hop]
                have hlt := getElem?_some_lt ht
                have hpp : (pushState s).position = s.position + 1 := rfl
                have hpt : (pushState s).tokens = s.tokens := rfl
                have hpush : (pushState s).position ≤ (pushState s).tokens.length := by
                  rw [hpp, hpt]
                  omega
                obtain ⟨p1, p2, p3⟩ := ihL [] (pushState s) hpush
                rw [hpp] at p1
                rw [hpt] at p2
                show s.position ≤ (parseList f [] (pushState s)).2.position ∧
                  (parseList f [] (pushState s)).2.position ≤ s.tokens.length ∧
                  ∀ v s', parseList f [] (pushState s) = (.ok v, s') →
                    s.tokens ≠ [] → s.position < s'.position
                refine ⟨by omega, p2, ?_⟩
                intro v s' h hne
                have hlt2 := p3 v s' h
                rw [hpp] at hlt2
                omega
              · rw [chompOpen_eq_none_of_some ht hop]
                obtain ⟨p1, p2, p3⟩ := parseAtom_progress s hpos
                exact ⟨p1, p2, fun v s' h hne => p3 v s' h⟩
      · intro comps s hpos
        rw [parseList]
        cases ht : s.tokens[s.position]? with
        | none =>
            rw [chompClose_eq_none_of_none ht]
            rcases hpf : parseForm f s with ⟨r, s1⟩
            obtain ⟨q1, q2, q3⟩ := ihF s hpos
            rw [hpf] at q1 q2 q3
            have hs1tok : s1.tokens = s.tokens := by
              have := (parseForm_parseList_tokens f).1 s
              rw [hpf] at this
              exact this
            cases r with
            | ok v =>
                have hpos1 : s1.position ≤ s1.tokens.length := by
                  rw [hs1tok]; exact q2
                obtain ⟨p1, p2, p3⟩ := ihL (comps ++ [v]) s1 hpos1
                rw [hs1tok] at p2
                refine ⟨Nat.le_trans q1 p1, p2, ?_⟩
                intro v' s' h
                exact Nat.lt_of_le_of_lt q1 (p3 v' s' h)
            | err e =>
                refine ⟨q1, q2, ?_⟩
                intro v s' h
                cases h
            | panicked =>
                refine ⟨q1, q2, ?_⟩
                intro v s' h
                cases h
            | nofuel =>
                refine ⟨q1, q2, ?_⟩
                intro v s' h
                cases h
        | some t =>
            by_cases hcv : t.value = [')']
            · rw [chompClose_eq_some ht hcv]
              have hlt := getElem?_some_lt ht
              refine ⟨by show s.position ≤ s.position + 1; omega,
                by show s.position + 1 ≤ s.tokens.length; omega, ?_⟩
              intro v s' h
              injection h with h1 h2
              rw [← h2]
              show s.position < s.position + 1
              omega
            · rw [chompClose_eq_none_of_some ht hcv]
              rcases hpf : parseForm f s with ⟨r, s1⟩
              obtain ⟨q1, q2, q3⟩ := ihF s hpos
              rw [hpf] at q1 q2 q3
              have hs1tok : s1.tokens = s.tokens := by
                have := (parseForm_parseList_tokens f).1 s
                rw [hpf] at this
                exact this
              cases r with
              | ok v =>
                  have hpos1 : s1.position ≤ s1.tokens.length := by
                    rw [hs1tok]; exact q2
                  obtain ⟨p1, p2, p3⟩ := ihL (comps ++ [v]) s1 hpos1
                  rw [hs1tok] at p2
                  refine ⟨Nat.le_trans q1 p1, p2, ?_⟩
                  intro v' s' h
                  exact Nat.lt_of_le_of_lt q1 (p3 v' s' h)
              | err e =>
                  refine ⟨q1, q2, ?_⟩
                  intro v s' h
                  cases h
              | panicked =>
                  refine ⟨q1, q2, ?_⟩
                  intro v s' h
                  cases h
              | nofuel =>
                  refine ⟨q1, q2, ?_⟩
                  intro v s' h
                  cases h

end Lishp
namespace Lishp

theorem parseAtom_ne_nofuel (s : PState) : (parseAtom s).1 ≠ .nofuel := by
  cases ht : s.tokens[s.position]? with
  | none =>
      rw [parseAtom_of_none ht]
      intro h; cases h
  | some t =>
      simp only [parseAtom, ht]
      repeat' split
      all_goals intro h
      all_goals simp at h

theorem parseForm_parseList_ne_nofuel :
    ∀ fuel : Nat,
      (∀ s : PState, s.position ≤ s.tokens.length →
        2 * (s.tokens.length - s.position) + 1 ≤ fuel →
        (parseForm fuel s).1 ≠ .nofuel) ∧
      (∀ (comps : List Ty) (s : PState), s.position ≤ s.tokens.length →
        s.tokens ≠ [] →
        2 * (s.tokens.length - s.position) + 2 ≤ fuel →
        (parseList fuel comps s).1 ≠ .nofuel) := by
  intro fuel
  induction fuel with
  | zero =>
      constructor
      · intro s hpos hf; omega
      · intro comps s hpos hne hf; omega
  | succ f ih =>
      obtain ⟨ihF, ihL⟩ := ih
      constructor
      · intro s hpos hf
        rw [parseForm]
        by_cases h0 : s.tokens.length = 0
        · rw [if_pos h0]
          intro h; cases h
        · rw [if_neg h0]
          cases ht : s.tokens[s.position]? with
          | none =>
              rw [chompOpen_eq_none_of_none ht]
              exact parseAtom_ne_nofuel s
          | some t =>
              by_cases hop : t.value = ['(']
              · rw [chompOpen_eq_some ht hop]
                have hlt := getElem?_some_lt ht
                have hne : s.tokens ≠ [] := by
                  intro hnil
                  rw [hnil] at hlt
                  simp at hlt
                have hpp : (pushState s).position = s.position + 1 := rfl
                have hpt : (pushState s).tokens = s.tokens := rfl
                refine ihL [] (pushState s) ?_ ?_ ?_
                · rw [hpp, hpt]; omega
                · rw [hpt]; exact hne
                · rw [hpp, hpt]; omega
              · rw [chompOpen_eq_none_of_some ht hop]
                exact parseAtom_ne_nofuel s
      · intro comps s hpos hne hf
        rw [parseList]
        cases ht : s.tokens[s.position]? with
        | none =>
            rw [chompClose_eq_none_of_none ht]
            rcases hpf : parseForm f s with ⟨r, s1⟩
            have hs1tok : s1.tokens = s.tokens := by
              have := (parseForm_parseList_tokens f).1 s
              rw [hpf] at this
              exact this
            obtain ⟨q1, q2, q3⟩ := (parseForm_parseList_progress f).1 s hpos
            rw [hpf] at q1 q2 q3
            cases r with
            | ok v =>
                have hcons : s.position < s1.position := q3 v s1 rfl hne
                have q2x : s1.position ≤ s.tokens.length := q2
                refine ihL (comps ++ [v]) s1 ?_ ?_ ?_
                · rw [hs1tok]; exact q2x
                · rw [hs1tok]; exact hne
                · rw [hs1tok]; omega
            | err e => intro h; cases h
            | panicked => intro h; cases h
            | nofuel =>
                have := ihF s hpos (by omega)
                rw [hpf] at this
                exact absurd rfl this
        | some t =>
            by_cases hcv : t.value = [')']
            · rw [chompClose_eq_some ht hcv]
              intro h; cases h
            · rw [chompClose_eq_none_of_some ht hcv]
              rcases hpf : parseForm f s with ⟨r, s1⟩
              have hs1tok : s1.tokens = s.tokens := by
                have := (parseForm_parseList_tokens f).1 s
                rw [hpf] at this
                exact this
              obtain ⟨q1, q2, q3⟩ := (parseForm_parseList_progress f).1 s hpos
              rw [hpf] at q1 q2 q3
              cases r with
              | ok v =>
                  have hcons : s.position < s1.position := q3 v s1 rfl hne
                  have q2x : s1.position ≤ s.tokens.length := q2
                  refine ihL (comps ++ [v]) s1 ?_ ?_ ?_
                  · rw [hs1tok]; exact q2x
                  · rw [hs1tok]; exact hne
                  · rw [hs1tok]; omega
              | err e => intro h; cases h
              | panicked => intro h; cases h
              | nofuel =>
                  have := ihF s hpos (by omega)
                  rw [hpf] at this
                  exact absurd rfl this

/-- The fuel `parse` supplies to `parse_form` always suffices: the parser
never reports the artificial `nofuel` outcome, i.e. the fuel-indexed
embedding computes the same total function the Rust recursion does. -/
theorem parse_ne_nofuel (toks : List Token) : parse toks ≠ .nofuel := by
  rw [parse, parseRun]
  rcases hpf : parseForm (parseFuel toks) ⟨toks, 0, []⟩ with ⟨r, s1⟩
  have hnf := (parseForm_parseList_ne_nofuel (parseFuel toks)).1
    ⟨toks, 0, []⟩ (by show 0 ≤ toks.length; omega)
    (by show 2 * (toks.length - 0) + 1 ≤ 2 * toks.length + 2; omega)
  rw [hpf] at hnf
  cases r with
  | ok ast =>
      show (if s1.position ≠ toks.length then (POut.err (eofErr s1), s1)
            else (POut.ok ast, s1)).1 ≠ POut.nofuel
      by_cases hpos : s1.position ≠ toks.length
      · rw [if_pos hpos]; intro h; cases h
      · rw [if_neg hpos]; intro h; cases h
  | err e => intro h; cases h
  | panicked => intro h; cases h
  | nofuel => exact absurd rfl hnf

/-- Neither stage of the pipeline can run out of fuel. -/
theorem pipeline_ne_nofuel (src : Str) : pipeline src ≠ .nofuel := by
  intro h
  rw [pipeline] at h
  cases hl : tokenize src with
  | err e => rw [hl] at h; cases h
  | nofuel => exact absurd hl (tokenize_ne_nofuel src)
  | ok toks =>
      rw [hl] at h
      replace h :
          (match parse toks with
           | POut.ok v => PipeOut.ok v
           | POut.err e => PipeOut.parseErr e
           | POut.panicked => PipeOut.panicked
           | POut.nofuel => PipeOut.nofuel) = PipeOut.nofuel := h
      cases hp : parse toks with
      | ok v => rw [hp] at h; cases h
      | err e => rw [hp] at h; cases h
      | panicked => rw [hp] at h; cases h
      | nofuel => exact absurd hp (parse_ne_nofuel toks)

end Lishp
